import Mathlib

/-!
# GKeyLib: a shallow embedding of the Gordon Key codec in Lean 4

This file embeds the core of GKeyLib (a streaming compressor/decompressor
for the "Gordon Key" / Fednet bit-packed back-reference format) and proves
properties of the embedded code.

Modelling conventions:
* C bytes are `Nat` values (always < 256 in reachable states); machine
  integers are `Nat` with masking made explicit where the C code masks.
* `unsigned long` accumulators are `Nat`: on every reachable state the
  accumulator holds at most 17 live bits, far below the 32-bit minimum
  width of `unsigned long`, so no wrap-around is lost in translation.
* Buffers handed to the codec via pointers become `List Nat`:
  `in_buffer` is the byte sequence at the read cursor (pointer advance =
  dropping consumed bytes), and `out_buffer` is `some l` where `l` holds
  the bytes written through the cursor so far (pointer advance = appending),
  or `none` for the sizing mode (a NULL output pointer in C).
* The C `do { switch } while` state machines become one Lean function per
  `case` label, with `/* FALLTHROUGH */` a direct call to the next case's
  function, and a fuelled driver loop for the `do ... while`.  Fuel
  exhaustion returns the running status (which is `OK` whenever the loop
  re-enters), so it only cuts executions short, never invents a status.
* `SIZE_MAX` sentinels become `Option Nat` (`none` = not found).
-/

namespace GKeyLib

/-- Status values returned by the codec (GKey.h `GKeyStatus`). -/
inductive GKeyStatus where
  | OK
  | BadInput
  | TruncatedInput
  | BufferOverflow
  | Aborted
  | Finished
deriving DecidableEq, Repr

/-- The history ring buffer (Internal/RingBuffer.h `RingBuffer`).
`buffer` is the flexible array member; its length equals `size` in every
state reachable from `RingBuffer_make`. -/
structure RingBuffer where
  size : Nat
  write_pos : Nat
  filled : Bool
  size_log_2 : Nat
  buffer : List Nat
deriving DecidableEq, Repr

/-- RingBuffer.c `RingBuffer_reset`: zero the storage, rewind the cursor. -/
def RingBuffer_reset (ring : RingBuffer) : RingBuffer :=
  { ring with write_pos := 0, filled := false, buffer := List.replicate ring.size 0 }

/-- RingBuffer.c `RingBuffer_init`: record the size then reset. -/
def RingBuffer_init (ring : RingBuffer) (size_log_2 : Nat) : RingBuffer :=
  RingBuffer_reset { ring with size_log_2 := size_log_2, size := 2 ^ size_log_2 }

/-- RingBuffer.c `RingBuffer_make` (the allocation is immaterial here). -/
def RingBuffer_make (size_log_2 : Nat) : RingBuffer :=
  RingBuffer_init { size := 0, write_pos := 0, filled := false, size_log_2 := 0, buffer := [] }
    size_log_2

/-- `memmove(buffer + pos, chunk, chunk.length)` on a snapshot source:
overwrite `buffer[pos..pos+len)` with `chunk` (out-of-range writes drop,
as they are undefined behaviour in the C source). -/
def memWrite : List Nat → Nat → List Nat → List Nat
  | buf, _, [] => buf
  | buf, pos, b :: rest => memWrite (buf.set pos b) (pos + 1) rest

/-- RingBuffer.c `RingBuffer_write`: append `s` at the write position,
wrapping at the physical end of storage and recording the wrap in
`filled`.  Follows the C chunk loop; each `memmove` takes its source as
an immutable snapshot (`s` is a pure list), exactly as in the C code
where the callers guarantee the source does not alias the written area. -/
def RingBuffer_write_loop : Nat → RingBuffer → List Nat → RingBuffer
  | 0, ring, _ => ring
  | fuel + 1, ring, s =>
    if s.isEmpty then ring
    else
      let to_copy := min (ring.size - ring.write_pos) s.length
      if to_copy = 0 then ring
      else
        let buffer' := memWrite ring.buffer ring.write_pos (s.take to_copy)
        let wp := ring.write_pos + to_copy
        let ring' :=
          if ring.size ≤ wp then
            { ring with buffer := buffer', write_pos := 0, filled := true }
          else
            { ring with buffer := buffer', write_pos := wp }
        RingBuffer_write_loop fuel ring' (s.drop to_copy)

/-- RingBuffer.c `RingBuffer_write` proper.  Each chunk moves at least
one byte, so `s.length` rounds of the loop always suffice; the fuel-zero
fallback coincides with the loop's own exit (an empty `s`), so the fuel
is inert on every input. -/
def RingBuffer_write (ring : RingBuffer) (s : List Nat) : RingBuffer :=
  RingBuffer_write_loop s.length ring s

/-- part_000 `RingBuffer_read_char`: byte at `offset` past the write
position (the C code masks with `& (size - 1)`). -/
def RingBuffer_read_char (ring : RingBuffer) (offset : Nat) : Nat :=
  ring.buffer.getD ((ring.write_pos + offset) &&& (ring.size - 1)) 0

/-- C `memchr(seg, c, seg.length)`: index of the first occurrence of byte
`c`, if any. -/
def memchr : List Nat → Nat → Option Nat
  | [], _ => none
  | x :: xs, c => if x = c then some 0 else (memchr xs c).map (· + 1)

/-- part_000 `RingBuffer_find_char`: find byte `c` in the `n` bytes at
`offset` past the write position, in ring order.  Returns the offset of
the first match measured from the write position (`none` models the
`SIZE_MAX` sentinel).  When the write cursor has never wrapped
(`filled = false`) and the range starts in the virgin region, the scan of
that region is skipped: its bytes are known to be zero. -/
def RingBuffer_find_char (ring : RingBuffer) (offset n : Nat) (c : Nat) : Option Nat :=
  let abs_read := (ring.write_pos + offset) &&& (ring.size - 1)
  let to_search0 :=
    if abs_read < ring.write_pos then ring.write_pos - abs_read
    else ring.size - abs_read
  let search : Bool :=
    if abs_read < ring.write_pos then true
    else ring.filled
  let to_search := if search then min to_search0 n else to_search0
  let found0 : Option Nat :=
    if search then memchr ((ring.buffer.drop abs_read).take (min to_search0 n)) c
    else if c = 0 then some 0 else none
  match found0 with
  | some idx => some (idx + offset)
  | none =>
    if to_search < n then
      let offset' := offset + to_search
      let n' := n - to_search
      let ts2 := min ring.write_pos n'
      match memchr (ring.buffer.take ts2) c with
      | some idx => some (idx + offset')
      | none => none
    else none

/-- C `memcmp` on two equal-length byte chunks: sign of the first
difference, bytes compared as unsigned. -/
def memcmp : List Nat → List Nat → Int
  | x :: xs, y :: ys => if x = y then memcmp xs ys else (x : Int) - (y : Int)
  | _, _ => 0

/-- The chunked comparison loop of part_000 `RingBuffer_compare`
(`start1/start2` are absolute indices into `buffer`, `len1/len2` the
bytes remaining before each window's physical end).  The first argument
is fuel for Lean's termination checker: each chunk compares at least one
byte, so starting the fuel at `nleft` always suffices, and the fuel-zero
fallback coincides with the `nleft = 0` exit.  The `min … = 0` guard is
likewise inert: under the caller's preconditions both windows always
have at least one byte before their physical end. -/
def RingBuffer_compare_loop (buffer : List Nat) (write_pos : Nat) :
    Nat → Nat → Nat → Nat → Nat → Nat → Int
  | 0, _, _, _, _, _ => 0
  | fuel + 1, start1, start2, len1, len2, nleft =>
    if nleft = 0 then 0
    else
      if min (min len1 len2) nleft = 0 then 0
      else
        let to_compare := min (min len1 len2) nleft
        let diff := memcmp ((buffer.drop start1).take to_compare)
          ((buffer.drop start2).take to_compare)
        if diff ≠ 0 then diff
        else
          let (start1', len1') :=
            if len1 - to_compare = 0 then (0, write_pos)
            else (start1 + to_compare, len1 - to_compare)
          let (start2', len2') :=
            if len2 - to_compare = 0 then (0, write_pos)
            else (start2 + to_compare, len2 - to_compare)
          RingBuffer_compare_loop buffer write_pos fuel start1' start2' len1' len2'
            (nleft - to_compare)

/-- part_000 `RingBuffer_compare`: lexicographic comparison of the two
`n`-byte windows at `offset1` and `offset2` past the write position. -/
def RingBuffer_compare (ring : RingBuffer) (offset1 offset2 n : Nat) : Int :=
  let abs_read1 := (ring.write_pos + offset1) &&& (ring.size - 1)
  let abs_read2 := (ring.write_pos + offset2) &&& (ring.size - 1)
  if n = 1 then
    (ring.buffer.getD abs_read1 0 : Int) - (ring.buffer.getD abs_read2 0 : Int)
  else
    let len1 :=
      if abs_read1 < ring.write_pos then ring.write_pos - abs_read1
      else ring.size - abs_read1
    let len2 :=
      if abs_read2 < ring.write_pos then ring.write_pos - abs_read2
      else ring.size - abs_read2
    RingBuffer_compare_loop ring.buffer ring.write_pos n abs_read1 abs_read2 len1 len2 n

/-- The iteration of RingBuffer.c `RingBuffer_copy`: copy up to `n` bytes
from `offset` past the write position back to the write position, one
physically contiguous chunk at a time.  Each chunk is first offered to the
callback (which may truncate it and threads its own state `st`), then the
accepted prefix is appended through `RingBuffer_write`.  `total` is the
loop counter of the C `for`.  The `0 < to_copy` guard only serves Lean's
termination checker: with a power-of-two `size` the masked read position
is always below `size`, so `to_copy` is positive whenever the loop runs. -/
def RingBuffer_copy_loop {σ : Type} (write_cb : Option (σ → List Nat → σ × Nat))
    (offset n : Nat) : Nat → RingBuffer → σ → Nat → RingBuffer × σ × Nat
  | 0, ring, st, total => (ring, st, total)
  | fuel + 1, ring, st, total =>
    if total < n then
      let read_pos := (ring.write_pos + offset) &&& (ring.size - 1)
      let to_copy := min (ring.size - read_pos) (n - total)
      let s := (ring.buffer.drop read_pos).take to_copy
      let (st', copied) :=
        match write_cb with
        | some cb => cb st s
        | none => (st, to_copy)
      let ring' := RingBuffer_write ring (s.take copied)
      if to_copy ≤ copied ∧ 0 < to_copy then
        RingBuffer_copy_loop write_cb offset n fuel ring' st' (total + copied)
      else
        (ring', st', total + copied)
    else (ring, st, total)

/-- RingBuffer.c `RingBuffer_copy`.  Each continuing round accepts at
least one byte, so `n` rounds of fuel always suffice; the fuel-zero
fallback coincides with the loop's `total < n` exit, so the fuel is
inert on every input. -/
def RingBuffer_copy {σ : Type} (ring : RingBuffer)
    (write_cb : Option (σ → List Nat → σ × Nat)) (cb_arg : σ)
    (offset n : Nat) : RingBuffer × σ × Nat :=
  RingBuffer_copy_loop write_cb offset n (n + 1) ring cb_arg 0

/-- GKey.c `GKey_get_read_size_bits`: number of bits encoding a copy
length for a copy starting at `read_offset`.  The `≥` (rather than `>`)
matches Gordon Key's format. -/
def GKey_get_read_size_bits (history_log_2 : Nat) (read_offset : Nat) : Nat :=
  if 0 < history_log_2 ∧ 2 ^ (history_log_2 - 1) ≤ read_offset then
    history_log_2 - 1
  else
    history_log_2

/-- GKey.h `GKeyParameters`.  `in_buffer` holds the bytes at the input
cursor; `out_buffer = some l` holds the bytes written through the output
cursor so far, `none` is the sizing mode (NULL output pointer). -/
structure GKeyParameters where
  in_buffer : List Nat
  in_size : Nat
  out_buffer : Option (List Nat)
  out_size : Nat
  prog_cb : Option (Nat → Nat → Bool)

/-- GKeyDecomp.c `GKeyDecompState`.  The initial state is `Progress`. -/
inductive GKeyDecompState where
  | Progress
  | GetType
  | GetOffset
  | GetSize
  | CopyData
  | GetByte
  | PutByte
deriving DecidableEq, Repr

/-- GKeyDecomp.c `struct GKeyDecomp`. -/
structure GKeyDecomp where
  state : GKeyDecompState
  in_total : Nat
  out_total : Nat
  read_offset : Nat
  read_size : Nat
  acc : Nat
  acc_nbits : Nat
  literal : Nat
  history_log_2 : Nat
  history : RingBuffer

/-- GKeyDecomp.c `gkeydecomp_make` (allocation immaterial here). -/
def gkeydecomp_make (history_log_2 : Nat) : GKeyDecomp :=
  { state := .Progress, in_total := 0, out_total := 0, read_offset := 0,
    read_size := 0, acc := 0, acc_nbits := 0, literal := 0,
    history_log_2 := history_log_2, history := RingBuffer_make history_log_2 }

/-- GKeyDecomp.c `gkeydecomp_reset`. -/
def gkeydecomp_reset (decomp : GKeyDecomp) : GKeyDecomp :=
  { gkeydecomp_make decomp.history_log_2 with
      history_log_2 := decomp.history_log_2,
      history := RingBuffer_reset decomp.history }

/-- GKeyDecomp.c `ring_writer`: copy as much of `src` into the output
window as fits (sizing mode just counts), advancing cursor and totals.
The threaded state pairs the parameter block with the decompressor's
`out_total`. -/
def gkeydecomp_ring_writer (st : GKeyParameters × Nat) (src : List Nat) :
    (GKeyParameters × Nat) × Nat :=
  let (params, out_total) := st
  match params.out_buffer with
  | none =>
    (({ params with out_size := params.out_size + src.length }, out_total + src.length),
     src.length)
  | some out =>
    let n := if params.out_size < src.length then params.out_size else src.length
    (({ params with out_buffer := some (out ++ src.take n)
                    out_size := params.out_size - n }, out_total + n), n)

/-- The byte-fetching loop of GKeyDecomp.c `read_bits`: while fewer than
`nbits` bits are buffered and input remains, pull one byte into the
accumulator's high end.  Returns the updated
`(in_buffer, in_size, in_total, acc, acc_nbits, success)`. -/
def read_bits_loop (nbits : Nat) :
    List Nat → Nat → Nat → Nat → Nat → List Nat × Nat × Nat × Nat × Nat × Bool
  | in_buffer, in_size, in_total, acc, acc_nbits =>
    if acc_nbits < nbits then
      match in_size with
      | 0 => (in_buffer, 0, in_total, acc, acc_nbits, false)
      | in_size' + 1 =>
        let byte := in_buffer.headD 0
        read_bits_loop nbits in_buffer.tail in_size' (in_total + 1)
          (acc ||| (byte <<< acc_nbits)) (acc_nbits + 8)
    else (in_buffer, in_size, in_total, acc, acc_nbits, true)

/-- GKeyDecomp.c `read_bits`: extract `nbits` low bits from the
accumulator, refilling it bytewise from the input window.  `some v`
models `true` with `*out = v`; `none` models `false` (partial refill
persists). -/
def read_bits (decomp : GKeyDecomp) (params : GKeyParameters) (nbits : Nat) :
    GKeyDecomp × GKeyParameters × Option Nat :=
  let (in_buffer, in_size, in_total, acc, acc_nbits, success) :=
    read_bits_loop nbits params.in_buffer params.in_size decomp.in_total
      decomp.acc decomp.acc_nbits
  let (out, acc', acc_nbits') :=
    if nbits ≤ acc_nbits then
      (some (acc &&& (2 ^ nbits - 1)), acc >>> nbits, acc_nbits - nbits)
    else (none, acc, acc_nbits)
  ({ decomp with in_total := in_total, acc := acc', acc_nbits := acc_nbits' },
   { params with in_buffer := in_buffer, in_size := in_size },
   if success then out else none)

/-- Result of one execution of the decompressor's `switch` (one iteration
of the `do` loop): updated state; status; and the `stop` flag marking a
graceful end of stream. -/
structure DecompStep where
  decomp : GKeyDecomp
  params : GKeyParameters
  status : GKeyStatus
  stop : Bool

/-- GKeyDecomp.c `case GKeyDecompState_CopyData`. -/
def dstep_CopyData (d : GKeyDecomp) (p : GKeyParameters) : DecompStep :=
  let r := RingBuffer_copy d.history (some gkeydecomp_ring_writer) (p, d.out_total)
    d.read_offset d.read_size
  let copied := r.2.2
  let p' := r.2.1.1
  let d' := { d with history := r.1, out_total := r.2.1.2 }
  if d'.read_size ≤ copied then
    ⟨{ d' with state := .Progress }, p', .OK, false⟩
  else
    ⟨{ d' with read_size := d'.read_size - copied }, p', .BufferOverflow, false⟩

/-- GKeyDecomp.c `case GKeyDecompState_GetSize` (falls through to
`CopyData` when the copy parameters validate). -/
def dstep_GetSize (d : GKeyDecomp) (p : GKeyParameters) : DecompStep :=
  let nbits := GKey_get_read_size_bits d.history_log_2 d.read_offset
  match read_bits d p nbits with
  | (d', p', some bits) =>
    if bits = 0 ∨ 2 ^ d'.history_log_2 < d'.read_offset + bits then
      ⟨d', p', .BadInput, false⟩
    else
      dstep_CopyData { d' with read_size := bits, state := .CopyData } p'
  | (d', p', none) => ⟨d', p', .TruncatedInput, false⟩

/-- GKeyDecomp.c `case GKeyDecompState_GetOffset` (falls through to
`GetSize`). -/
def dstep_GetOffset (d : GKeyDecomp) (p : GKeyParameters) : DecompStep :=
  match read_bits d p d.history_log_2 with
  | (d', p', some bits) =>
    dstep_GetSize { d' with read_offset := bits, state := .GetSize } p'
  | (d', p', none) => ⟨d', p', .TruncatedInput, false⟩

/-- GKeyDecomp.c `case GKeyDecompState_GetType` (falls through to
`GetOffset` on a set tag bit; a clear tag bit parks the machine in
`GetByte`; refill failure is the graceful end of stream, `stop`). -/
def dstep_GetType (d : GKeyDecomp) (p : GKeyParameters) : DecompStep :=
  match read_bits d p 1 with
  | (d', p', some bits) =>
    if bits ≠ 0 then dstep_GetOffset { d' with state := .GetOffset } p'
    else ⟨{ d' with state := .GetByte }, p', .OK, false⟩
  | (d', p', none) => ⟨d', p', .OK, true⟩

/-- GKeyDecomp.c `case GKeyDecompState_Progress` (falls through to
`GetType` unless the progress callback vetoes). -/
def dstep_Progress (d : GKeyDecomp) (p : GKeyParameters) : DecompStep :=
  match p.prog_cb with
  | some cb =>
    if cb d.in_total d.out_total then dstep_GetType { d with state := .GetType } p
    else ⟨d, p, .Aborted, false⟩
  | none => dstep_GetType { d with state := .GetType } p

/-- GKeyDecomp.c `case GKeyDecompState_PutByte`. -/
def dstep_PutByte (d : GKeyDecomp) (p : GKeyParameters) : DecompStep :=
  let r := gkeydecomp_ring_writer (p, d.out_total) [d.literal]
  let copied := r.2
  let p' := r.1.1
  let d' := { d with out_total := r.1.2 }
  if copied = 1 then
    ⟨{ d' with history := RingBuffer_write d'.history [d'.literal]
               state := .Progress }, p', .OK, false⟩
  else
    ⟨d', p', .BufferOverflow, false⟩

/-- GKeyDecomp.c `case GKeyDecompState_GetByte` (falls through to
`PutByte`; on underflow an all-zero accumulator is the graceful end of
stream, anything else is truncation). -/
def dstep_GetByte (d : GKeyDecomp) (p : GKeyParameters) : DecompStep :=
  match read_bits d p 8 with
  | (d', p', some bits) =>
    dstep_PutByte { d' with literal := bits, state := .PutByte } p'
  | (d', p', none) =>
    if d'.acc = 0 then ⟨d', p', .OK, true⟩
    else ⟨d', p', .TruncatedInput, false⟩

/-- One execution of the decompressor's `switch` statement. -/
def gkeydecomp_step (d : GKeyDecomp) (p : GKeyParameters) : DecompStep :=
  match d.state with
  | .Progress => dstep_Progress d p
  | .GetType => dstep_GetType d p
  | .GetOffset => dstep_GetOffset d p
  | .GetSize => dstep_GetSize d p
  | .CopyData => dstep_CopyData d p
  | .GetByte => dstep_GetByte d p
  | .PutByte => dstep_PutByte d p

/-- The `do ... while (status == GKeyStatus_OK && !stop)` driver of
GKeyDecomp.c `gkeydecomp_decompress`.  Fuel exhaustion returns the
running status, which is `OK` whenever the loop re-enters. -/
def gkeydecomp_loop : Nat → GKeyDecomp → GKeyParameters →
    GKeyDecomp × GKeyParameters × GKeyStatus
  | 0, d, p => (d, p, .OK)
  | fuel + 1, d, p =>
    let s := gkeydecomp_step d p
    if s.status = .OK ∧ s.stop = false then gkeydecomp_loop fuel s.decomp s.params
    else (s.decomp, s.params, s.status)

/-- GKeyDecomp.c `gkeydecomp_decompress` (with explicit fuel for the
`do` loop; every real execution terminates, and any sufficiently large
fuel yields the C behaviour). -/
def gkeydecomp_decompress (fuel : Nat) (decomp : GKeyDecomp) (params : GKeyParameters) :
    GKeyDecomp × GKeyParameters × GKeyStatus :=
  gkeydecomp_loop fuel decomp params

/-- part_003 `GKeyCompState`.  In the C enum `NextSequence = -1` and
`Progress = 0`; zero-initialisation therefore starts a compressor in
`Progress`. -/
inductive GKeyCompState where
  | NextSequence
  | Progress
  | FindSequence
  | PutOffset
  | PutSize
  | PutByte
  | PutBytes
  | Flush
deriving DecidableEq, Repr

/-- part_003 `struct GKeyComp` (`out_pos` is declared but never used by
the source; it is kept for layout fidelity). -/
structure GKeyComp where
  state : GKeyCompState
  in_total : Nat
  out_total : Nat
  out_pos : Nat
  max_read_size : Nat
  best_read_offset : Nat
  best_read_size : Nat
  read_offset : Nat
  read_size : Nat
  acc : Nat
  acc_nbits : Nat
  history_log_2 : Nat
  history : RingBuffer

/-- part_003 `gkeycomp_make` (allocation immaterial here); note the
initial state is `Progress`, the zero value of the C enum. -/
def gkeycomp_make (history_log_2 : Nat) : GKeyComp :=
  { state := .Progress, in_total := 0, out_total := 0, out_pos := 0,
    max_read_size := 0, best_read_offset := 0, best_read_size := 0,
    read_offset := 0, read_size := 0, acc := 0, acc_nbits := 0,
    history_log_2 := history_log_2, history := RingBuffer_make history_log_2 }

/-- part_003 `gkeycomp_reset`. -/
def gkeycomp_reset (comp : GKeyComp) : GKeyComp :=
  { gkeycomp_make comp.history_log_2 with
      history_log_2 := comp.history_log_2
      history := RingBuffer_reset comp.history }

/-- The draining loop of part_003 `write_bits`: while at least one whole
byte sits in the accumulator, move its low 8 bits to the output window
(or, in sizing mode, merely count it).  Returns
`(out_buffer, out_size, out_total, acc, acc_nbits, success)`. -/
def write_bits_drain_loop :
    Nat → Option (List Nat) → Nat → Nat → Nat → Nat →
      Option (List Nat) × Nat × Nat × Nat × Nat × Bool
  | 0, out_buffer, out_size, out_total, acc, acc_nbits =>
    (out_buffer, out_size, out_total, acc, acc_nbits, true)
  | fuel + 1, out_buffer, out_size, out_total, acc, acc_nbits =>
    if 8 ≤ acc_nbits then
      if out_buffer.isSome ∧ out_size = 0 then
        (out_buffer, out_size, out_total, acc, acc_nbits, false)
      else
        let old_acc := acc
        match out_buffer with
        | some out =>
          write_bits_drain_loop fuel (some (out ++ [old_acc % 256])) (out_size - 1)
            (out_total + 1) (acc >>> 8) (acc_nbits - 8)
        | none =>
          write_bits_drain_loop fuel none (out_size + 1) (out_total + 1)
            (acc >>> 8) (acc_nbits - 8)
    else (out_buffer, out_size, out_total, acc, acc_nbits, true)

/-- Entry to the draining loop.  Each round removes 8 bits, so
`acc_nbits` rounds of fuel always suffice, and the fuel-zero fallback
(possible only with an empty accumulator) coincides with the loop's own
`acc_nbits < 8` exit, so the fuel is inert on every input. -/
def write_bits_drain (out_buffer : Option (List Nat)) (out_size out_total acc acc_nbits : Nat) :
    Option (List Nat) × Nat × Nat × Nat × Nat × Bool :=
  write_bits_drain_loop acc_nbits out_buffer out_size out_total acc acc_nbits

/-- part_003 `write_bits`: drain whole bytes, then append the low `n`
bits of `bits` at the top of the accumulator.  `nbits = none` models the
C `nbits == UINT_MAX` flush convention: pad `acc_nbits` to the next
multiple of 8 and insert nothing. -/
def write_bits (comp : GKeyComp) (params : GKeyParameters) (nbits : Option Nat) (bits : Nat) :
    GKeyComp × GKeyParameters × Bool :=
  let nbits' := match nbits with | none => 0 | some nb => nb
  let acc_nbits1 :=
    match nbits with
    | none =>
      if comp.acc_nbits % 8 ≠ 0 then comp.acc_nbits + (8 - comp.acc_nbits % 8)
      else comp.acc_nbits
    | some _ => comp.acc_nbits
  let r := write_bits_drain params.out_buffer params.out_size comp.out_total comp.acc acc_nbits1
  let success := r.2.2.2.2.2
  let acc3 := if success then r.2.2.2.1 ||| (bits <<< r.2.2.2.2.1) else r.2.2.2.1
  let acc_nbits3 := if success then r.2.2.2.2.1 + nbits' else r.2.2.2.2.1
  ({ comp with out_total := r.2.2.1, acc := acc3, acc_nbits := acc_nbits3 },
   { params with out_buffer := r.1, out_size := r.2.1 }, success)

/-- The literal-emitting loop of part_003's (compressor) `ring_writer`:
write each byte of `src` as a 9-bit tagged literal until one fails. -/
def gkeycomp_ring_writer_loop : GKeyComp → GKeyParameters → List Nat → Nat →
    (GKeyComp × GKeyParameters) × Nat
  | comp, params, [], nout => ((comp, params), nout)
  | comp, params, b :: rest, nout =>
    match write_bits comp params (some 9) (b <<< 1) with
    | (comp', params', true) => gkeycomp_ring_writer_loop comp' params' rest (nout + 1)
    | (comp', params', false) => ((comp', params'), nout)

/-- part_003 (compressor) `ring_writer`. -/
def gkeycomp_ring_writer (st : GKeyComp × GKeyParameters) (src : List Nat) :
    (GKeyComp × GKeyParameters) × Nat :=
  gkeycomp_ring_writer_loop st.1 st.2 src 0

/-- The local variables of part_003 `find_sequence`'s search loop. -/
structure FindSeqVars where
  read_offset : Nat
  read_size : Nat
  max_read_size : Nat
  best_read_offset : Nat
  best_read_size : Nat
  consumed : Nat
deriving DecidableEq, Repr

/-- The inner extension loop of part_003 `find_sequence`: grow the match
at `read_offset` while history agrees with pending input.  Returns
`(read_size, consumed, stalled)`; `stalled = true` models
`goto finished` on input exhaustion. -/
def fs_extend_loop (history : RingBuffer) (in_buffer : List Nat) (in_size : Nat)
    (read_offset max_read_size : Nat) : Nat → Nat → Nat → Nat × Nat × Bool
  | 0, read_size, consumed => (read_size, consumed, false)
  | fuel + 1, read_size, consumed =>
    if read_size < max_read_size then
      if in_size ≤ consumed then (read_size, consumed, true)
      else
        let new_byte := in_buffer.getD consumed 0
        let old_byte := RingBuffer_read_char history (read_offset + read_size)
        if new_byte ≠ old_byte then (read_size, consumed, false)
        else
          fs_extend_loop history in_buffer in_size read_offset max_read_size fuel
            (read_size + 1) (consumed + 1)
    else (read_size, consumed, false)

/-- Entry to the extension loop.  Each round grows `read_size` by one,
so `max_read_size - read_size` rounds of fuel always suffice, and the
fuel-zero fallback coincides with the loop's `read_size ≥ max_read_size`
exit, so the fuel is inert on every input. -/
def fs_extend (history : RingBuffer) (in_buffer : List Nat) (in_size : Nat)
    (read_offset max_read_size read_size consumed : Nat) : Nat × Nat × Bool :=
  fs_extend_loop history in_buffer in_size read_offset max_read_size
    (max_read_size - read_size) read_size consumed

/-- The tail of one outer iteration of part_003 `find_sequence` (from the
extension loop to the `for` update `++read_offset, read_size = 0`).
Returns the updated variables and whether the outer loop continues
(`false` models `goto finished`). -/
def fs_round (history : RingBuffer) (in_buffer : List Nat) (in_size : Nat)
    (v : FindSeqVars) : FindSeqVars × Bool :=
  let (read_size', consumed', stalled) :=
    fs_extend history in_buffer in_size v.read_offset v.max_read_size
      v.read_size v.consumed
  if stalled then ({ v with read_size := read_size', consumed := consumed' }, false)
  else
    let v' :=
      if v.best_read_size < read_size' then
        { v with best_read_offset := v.read_offset, best_read_size := read_size'
                 read_size := read_size', consumed := consumed' }
      else { v with read_size := read_size', consumed := consumed' }
    ({ v' with read_offset := v'.read_offset + 1, read_size := 0 }, true)

/-- The outer search loop of part_003 `find_sequence`.  A `break` (commit
or stall) returns the current variables; the fuel bounds the number of
outer iterations (each completed iteration strictly increases
`read_offset`, which the loop bounds by `2 ^ history_log_2`, so
`2 ^ history_log_2 + 2` iterations always suffice). -/
def fs_loop (history : RingBuffer) (history_log_2 : Nat) (in_buffer : List Nat)
    (in_size : Nat) : Nat → FindSeqVars → FindSeqVars
  | 0, v => v
  | fuel + 1, v =>
    if v.read_size = 0 then
      let max1 := 2 ^ history_log_2 - v.read_offset
      let max2 := if 0 < max1 then max1 - 1 else max1
      if max2 ≤ v.best_read_size then { v with max_read_size := max2 }
      else
        let nb : Option Nat :=
          if v.best_read_size = 0 then
            if in_size ≤ v.consumed then none
            else some (in_buffer.getD v.consumed 0)
          else some (RingBuffer_read_char history v.best_read_offset)
        match nb with
        | none => { v with max_read_size := max2 }
        | some new_byte =>
          match RingBuffer_find_char history v.read_offset (max2 - v.best_read_size)
              new_byte with
          | none => { v with max_read_size := 0 }
          | some found =>
            let consumed' := if v.best_read_size = 0 then v.consumed + 1 else v.consumed
            let max3 := max2 - (found - v.read_offset)
            let v1 := { v with read_offset := found, read_size := 1
                               max_read_size := max3, consumed := consumed' }
            if v1.read_size < v1.best_read_size then
              if RingBuffer_compare history (v1.read_offset + v1.read_size)
                  (v1.best_read_offset + v1.read_size)
                  (v1.best_read_size - v1.read_size) ≠ 0 then
                fs_loop history history_log_2 in_buffer in_size fuel
                  { v1 with read_offset := v1.read_offset + 1, read_size := 0 }
              else
                let v2 := { v1 with read_size := v1.best_read_size }
                let (v3, cont) := fs_round history in_buffer in_size v2
                if cont then fs_loop history history_log_2 in_buffer in_size fuel v3 else v3
            else
              let (v3, cont) := fs_round history in_buffer in_size v1
              if cont then fs_loop history history_log_2 in_buffer in_size fuel v3 else v3
    else
      let (v3, cont) := fs_round history in_buffer in_size v
      if cont then fs_loop history history_log_2 in_buffer in_size fuel v3 else v3

/-- part_003 `find_sequence`: search the history for the longest match
against pending input, then publish the result into the compressor and
consume the matched input.  Returns `true` when the search is complete
(committed) and `false` when it stalled for lack of input. -/
def find_sequence (comp : GKeyComp) (params : GKeyParameters) :
    GKeyComp × GKeyParameters × Bool :=
  let v0 : FindSeqVars :=
    { read_offset := comp.read_offset, read_size := comp.read_size,
      max_read_size := comp.max_read_size, best_read_offset := comp.best_read_offset,
      best_read_size := comp.best_read_size, consumed := 0 }
  let v := fs_loop comp.history comp.history_log_2 params.in_buffer params.in_size
    (2 ^ comp.history_log_2 + 2) v0
  let comp1 := { comp with in_total := comp.in_total + v.consumed
                           best_read_offset := v.best_read_offset
                           best_read_size := v.best_read_size
                           max_read_size := v.max_read_size }
  let params1 := { params with in_buffer := params.in_buffer.drop v.consumed
                               in_size := params.in_size - v.consumed }
  if v.max_read_size ≤ v.best_read_size then
    ({ comp1 with read_size := v.best_read_size, read_offset := v.best_read_offset },
     params1, true)
  else
    ({ comp1 with read_size := v.read_size, read_offset := v.read_offset },
     params1, false)

/-- Result of one execution of the compressor's `switch`: updated state;
status; and the `input` flag (`false` exits the `do` loop waiting for
more input). -/
structure CompStep where
  comp : GKeyComp
  params : GKeyParameters
  status : GKeyStatus
  input : Bool

/-- part_003 `case GKeyCompState_PutSize` (writes the copy length then
replays the matched bytes into the history ring with no callback). -/
def cstep_PutSize (c : GKeyComp) (p : GKeyParameters) : CompStep :=
  let nbits := GKey_get_read_size_bits c.history_log_2 c.read_offset
  match write_bits c p (some nbits) c.read_size with
  | (c', p', true) =>
    let history' :=
      (RingBuffer_copy (σ := Unit) c'.history none () c'.read_offset c'.read_size).1
    ⟨{ c' with history := history', state := .NextSequence }, p', .OK, true⟩
  | (c', p', false) => ⟨c', p', .BufferOverflow, true⟩

/-- part_003 `case GKeyCompState_PutOffset` (falls through to
`PutSize`): write the tag bit and the copy offset as
`(read_offset << 1) | 1` in `1 + history_log_2` bits. -/
def cstep_PutOffset (c : GKeyComp) (p : GKeyParameters) : CompStep :=
  match write_bits c p (some (c.history_log_2 + 1)) ((c.read_offset <<< 1) ||| 1) with
  | (c', p', true) => cstep_PutSize { c' with state := .PutSize } p'
  | (c', p', false) => ⟨c', p', .BufferOverflow, true⟩

/-- part_003 `case GKeyCompState_FindSequence` (falls through to
`PutOffset` when a copy token is cheaper than the literal run). -/
def cstep_FindSequence (flush : Bool) (c : GKeyComp) (p : GKeyParameters) : CompStep :=
  let (c1, p1, ok) := if flush then (c, p, true) else find_sequence c p
  if ok then
    if c1.read_size = 0 then
      if 0 < p1.in_size then ⟨{ c1 with state := .PutByte }, p1, .OK, true⟩
      else if flush then ⟨{ c1 with state := .Flush }, p1, .OK, true⟩
      else ⟨c1, p1, .OK, false⟩
    else
      let nbits := GKey_get_read_size_bits c1.history_log_2 c1.read_offset
      if c1.read_size * 9 < c1.history_log_2 + nbits + 1 then
        ⟨{ c1 with state := .PutBytes }, p1, .OK, true⟩
      else cstep_PutOffset { c1 with state := .PutOffset } p1
  else ⟨c1, p1, .OK, false⟩

/-- part_003 `case GKeyCompState_Progress` (falls through to
`FindSequence` unless the progress callback vetoes). -/
def cstep_Progress (flush : Bool) (c : GKeyComp) (p : GKeyParameters) : CompStep :=
  match p.prog_cb with
  | some cb =>
    if cb c.in_total c.out_total then
      cstep_FindSequence flush { c with state := .FindSequence } p
    else ⟨c, p, .Aborted, true⟩
  | none => cstep_FindSequence flush { c with state := .FindSequence } p

/-- part_003 `case GKeyCompState_NextSequence` (zeroes the search
scratch, then falls through to `Progress` without touching `state`). -/
def cstep_NextSequence (flush : Bool) (c : GKeyComp) (p : GKeyParameters) : CompStep :=
  cstep_Progress flush
    { c with best_read_size := 0, best_read_offset := 0, read_size := 0, read_offset := 0 } p

/-- part_003 `case GKeyCompState_PutByte`: emit the unmatched input byte
as a 9-bit tagged literal, append it to the history, consume it. -/
def cstep_PutByte (c : GKeyComp) (p : GKeyParameters) : CompStep :=
  let b := p.in_buffer.headD 0
  match write_bits c p (some 9) (b <<< 1) with
  | (c', p', true) =>
    ⟨{ c' with history := RingBuffer_write c'.history [b]
               in_total := c'.in_total + 1
               state := .NextSequence },
     { p' with in_buffer := p'.in_buffer.drop 1, in_size := p'.in_size - 1 },
     .OK, true⟩
  | (c', p', false) => ⟨c', p', .BufferOverflow, true⟩

/-- part_003 `case GKeyCompState_PutBytes`: emit the matched run as
tagged literals through the compressor's ring writer. -/
def cstep_PutBytes (c : GKeyComp) (p : GKeyParameters) : CompStep :=
  let r := RingBuffer_copy c.history (some gkeycomp_ring_writer) (c, p) c.read_offset c.read_size
  let copied := r.2.2
  let c2 := { r.2.1.1 with history := r.1 }
  let p2 := r.2.1.2
  if c2.read_size ≤ copied then
    ⟨{ c2 with state := .NextSequence }, p2, .OK, true⟩
  else
    ⟨{ c2 with read_size := c2.read_size - copied }, p2, .BufferOverflow, true⟩

/-- part_003 `case GKeyCompState_Flush`: pad and drain the accumulator;
the machine never leaves this state. -/
def cstep_Flush (c : GKeyComp) (p : GKeyParameters) : CompStep :=
  match write_bits c p none 0 with
  | (c', p', true) => ⟨c', p', .Finished, true⟩
  | (c', p', false) => ⟨c', p', .BufferOverflow, true⟩

/-- One execution of the compressor's `switch` statement. -/
def gkeycomp_step (flush : Bool) (c : GKeyComp) (p : GKeyParameters) : CompStep :=
  match c.state with
  | .NextSequence => cstep_NextSequence flush c p
  | .Progress => cstep_Progress flush c p
  | .FindSequence => cstep_FindSequence flush c p
  | .PutOffset => cstep_PutOffset c p
  | .PutSize => cstep_PutSize c p
  | .PutByte => cstep_PutByte c p
  | .PutBytes => cstep_PutBytes c p
  | .Flush => cstep_Flush c p

/-- The `do ... while (status == GKeyStatus_OK && input)` driver of
part_003 `gkeycomp_compress`. -/
def gkeycomp_loop : Nat → Bool → GKeyComp → GKeyParameters →
    GKeyComp × GKeyParameters × GKeyStatus
  | 0, _, c, p => (c, p, .OK)
  | fuel + 1, flush, c, p =>
    let s := gkeycomp_step flush c p
    if s.status = .OK ∧ s.input then gkeycomp_loop fuel flush s.comp s.params
    else (s.comp, s.params, s.status)

/-- part_003 `gkeycomp_compress` (with explicit fuel for the `do` loop).
An empty input window turns this call into a flush. -/
def gkeycomp_compress (fuel : Nat) (comp : GKeyComp) (params : GKeyParameters) :
    GKeyComp × GKeyParameters × GKeyStatus :=
  gkeycomp_loop fuel (params.in_size = 0) comp params

/-- The byte sequence a copy of `n` bytes from `offset` past the write
position produces: since the precondition `offset + n ≤ size` keeps the
source strictly inside history, it is read verbatim from the ring. -/
def ringReadSeq (ring : RingBuffer) (offset n : Nat) : List Nat :=
  (List.range n).map fun i => ring.buffer.getD ((ring.write_pos + (offset + i)) % ring.size) 0

/-! ## Helper lemmas -/

/-- `read_bits` only touches the bit-accumulator fields, the input
cursor and `in_total`. -/
theorem read_bits_preserves (d : GKeyDecomp) (p : GKeyParameters) (nbits : Nat) :
    (read_bits d p nbits).1.state = d.state ∧
    (read_bits d p nbits).1.read_offset = d.read_offset ∧
    (read_bits d p nbits).1.read_size = d.read_size ∧
    (read_bits d p nbits).1.history_log_2 = d.history_log_2 ∧
    (read_bits d p nbits).1.history = d.history ∧
    (read_bits d p nbits).1.out_total = d.out_total ∧
    (read_bits d p nbits).2.1.out_buffer = p.out_buffer ∧
    (read_bits d p nbits).2.1.out_size = p.out_size ∧
    (read_bits d p nbits).2.1.prog_cb = p.prog_cb := by
  simp only [read_bits]
  constructor <;> try constructor
  all_goals simp

/-- `dstep_CopyData` only reports success or output exhaustion. -/
theorem dstep_CopyData_status (d : GKeyDecomp) (p : GKeyParameters) :
    (dstep_CopyData d p).status = .OK ∨ (dstep_CopyData d p).status = .BufferOverflow := by
  simp only [dstep_CopyData]
  split <;> simp

/-- Unfolding of a non-zero-fuel driver round of the decompressor. -/
theorem gkeydecomp_loop_succ (fuel : Nat) (d : GKeyDecomp) (p : GKeyParameters) :
    gkeydecomp_loop (fuel + 1) d p =
      (if (gkeydecomp_step d p).status = .OK ∧ (gkeydecomp_step d p).stop = false then
        gkeydecomp_loop fuel (gkeydecomp_step d p).decomp (gkeydecomp_step d p).params
      else
        ((gkeydecomp_step d p).decomp, (gkeydecomp_step d p).params,
          (gkeydecomp_step d p).status)) :=
  rfl

/-- A successful drain that started with a whole number of buffered
bytes and enough fuel ends with an empty bit count. -/
theorem write_bits_drain_loop_flush_zero (fuel : Nat) :
    ∀ ob os ot acc nb, (write_bits_drain_loop fuel ob os ot acc nb).2.2.2.2.2 = true →
      nb % 8 = 0 → nb ≤ fuel → (write_bits_drain_loop fuel ob os ot acc nb).2.2.2.2.1 = 0 := by
  induction fuel with
  | zero =>
    intro ob os ot acc nb _ _ hle
    interval_cases nb
    rfl
  | succ fuel ih =>
    intro ob os ot acc nb hsucc hmod hle
    by_cases h8 : 8 ≤ nb
    · simp only [write_bits_drain_loop, if_pos h8] at hsucc ⊢
      by_cases hfull : ob.isSome ∧ os = 0
      · simp [if_pos hfull] at hsucc
      · simp only [if_neg hfull] at hsucc ⊢
        match ob with
        | some out => exact ih _ _ _ _ _ hsucc (by omega) (by omega)
        | none => exact ih _ _ _ _ _ hsucc (by omega) (by omega)
    · simp only [write_bits_drain_loop, if_neg h8]
      omega

/-- `write_bits` only touches the accumulator fields, `out_total` and
the output cursor. -/
theorem write_bits_preserves (c : GKeyComp) (p : GKeyParameters) (nbits : Option Nat)
    (bits : Nat) :
    (write_bits c p nbits bits).1.state = c.state ∧
    (write_bits c p nbits bits).1.in_total = c.in_total ∧
    (write_bits c p nbits bits).1.read_offset = c.read_offset ∧
    (write_bits c p nbits bits).1.read_size = c.read_size ∧
    (write_bits c p nbits bits).1.history_log_2 = c.history_log_2 ∧
    (write_bits c p nbits bits).1.history = c.history ∧
    (write_bits c p nbits bits).2.1.in_buffer = p.in_buffer ∧
    (write_bits c p nbits bits).2.1.in_size = p.in_size ∧
    (write_bits c p nbits bits).2.1.prog_cb = p.prog_cb :=
  ⟨rfl, rfl, rfl, rfl, rfl, rfl, rfl, rfl, rfl⟩

/-- A successful flush call of `write_bits` leaves no buffered bits. -/
theorem write_bits_flush_success (c : GKeyComp) (p : GKeyParameters)
    (h : (write_bits c p none 0).2.2 = true) :
    (write_bits c p none 0).1.acc_nbits = 0 := by
  have hmod : (if c.acc_nbits % 8 ≠ 0 then c.acc_nbits + (8 - c.acc_nbits % 8)
      else c.acc_nbits) % 8 = 0 := by
    split <;> omega
  have hz := write_bits_drain_loop_flush_zero
    (if c.acc_nbits % 8 ≠ 0 then c.acc_nbits + (8 - c.acc_nbits % 8) else c.acc_nbits)
    p.out_buffer p.out_size c.out_total c.acc
    (if c.acc_nbits % 8 ≠ 0 then c.acc_nbits + (8 - c.acc_nbits % 8) else c.acc_nbits)
    h hmod le_rfl
  simp only [write_bits, write_bits_drain] at h ⊢
  simp only [ne_eq, ite_not] at hz
  simp [h, hz]

/-- `cstep_Flush` reports `Finished` or `BufferOverflow`, leaves the
machine state untouched, and on `Finished` empties the bit count. -/
theorem cstep_Flush_analysis (c : GKeyComp) (p : GKeyParameters) :
    ((cstep_Flush c p).status = .Finished ∨ (cstep_Flush c p).status = .BufferOverflow) ∧
    (cstep_Flush c p).comp.state = c.state ∧
    ((cstep_Flush c p).status = .Finished → (cstep_Flush c p).comp.acc_nbits = 0) := by
  have hst := (write_bits_preserves c p none 0).1
  simp only [cstep_Flush]
  rcases hw : write_bits c p none 0 with ⟨c', p', ok⟩
  rw [hw] at hst
  cases ok with
  | true =>
    have hnb := write_bits_flush_success c p (by rw [hw])
    rw [hw] at hnb
    exact ⟨Or.inl rfl, hst, fun _ => hnb⟩
  | false =>
    exact ⟨Or.inr rfl, hst, fun hco =>
      ((by decide : GKeyStatus.BufferOverflow ≠ GKeyStatus.Finished) hco).elim⟩

/-- A found index is in range, hits `c`, and is the first hit. -/
theorem memchr_some (seg : List Nat) (c : Nat) :
    ∀ i, memchr seg c = some i →
      i < seg.length ∧ seg.getD i 0 = c ∧ ∀ j, j < i → seg.getD j 0 ≠ c := by
  induction seg with
  | nil => intro i h; simp [memchr] at h
  | cons x xs ih =>
    intro i h
    simp only [memchr] at h
    by_cases hx : x = c
    · rw [if_pos hx] at h
      obtain rfl : i = 0 := by simpa using h.symm
      refine ⟨by simp, by simpa using hx, fun j hj => by omega⟩
    · rw [if_neg hx] at h
      rcases hm : memchr xs c with _ | i0
      · rw [hm] at h; simp at h
      · rw [hm] at h
        obtain rfl : i = i0 + 1 := by simpa using h.symm
        obtain ⟨h1, h2, h3⟩ := ih i0 hm
        refine ⟨by simpa using h1, by simpa using h2, ?_⟩
        intro j hj
        match j with
        | 0 => simpa using hx
        | j + 1 =>
          have := h3 j (by omega)
          simpa using this

/-- A `none` answer means no byte of the segment is `c`. -/
theorem memchr_none (seg : List Nat) (c : Nat) (h : memchr seg c = none) :
    ∀ j, j < seg.length → seg.getD j 0 ≠ c := by
  induction seg with
  | nil => intro j hj; simp at hj
  | cons x xs ih =>
    intro j hj
    simp only [memchr] at h
    by_cases hx : x = c
    · rw [if_pos hx] at h; simp at h
    · rw [if_neg hx] at h
      match j with
      | 0 => simpa using hx
      | j + 1 =>
        rcases hm : memchr xs c with _ | i0
        · have := ih hm j (by simpa using hj)
          simpa using this
        · rw [hm] at h; simp at h

/-- Indexing a `drop`/`take` window with default 0. -/
theorem getD_drop_take (l : List Nat) (start len j : Nat) (hj : j < len) :
    ((l.drop start).take len).getD j 0 = l.getD (start + j) 0 := by
  simp only [List.getD_eq_getElem?_getD]
  rw [List.getElem?_take_of_lt hj, List.getElem?_drop]

/-- Indexing a `take` window with default 0. -/
theorem getD_take (l : List Nat) (len j : Nat) (hj : j < len) :
    (l.take len).getD j 0 = l.getD j 0 := by
  have h := getD_drop_take l 0 len j hj
  rwa [List.drop_zero, Nat.zero_add] at h

/-- Indexing a `drop` suffix with default 0. -/
theorem getD_drop (l : List Nat) (k j : Nat) :
    (l.drop k).getD j 0 = l.getD (k + j) 0 := by
  simp only [List.getD_eq_getElem?_getD, List.getElem?_drop]

/-- Reduction of `x % sz` when `x` is below twice the modulus. -/
theorem mod_cases_of_lt_two_mul (x sz : Nat) (h0 : 0 < sz) (h : x < 2 * sz) :
    x % sz = if x < sz then x else x - sz := by
  split
  · exact Nat.mod_eq_of_lt (by omega)
  · rw [Nat.mod_eq_sub_mod (by omega), Nat.mod_eq_of_lt (by omega)]

/-- Two ring positions reached by distinct advances below the capacity
are distinct. -/
theorem ring_pos_ne (wp sz a b : Nat) (ha : a < sz) (hb : b < sz)
    (hne : a ≠ b) : (wp + a) % sz ≠ (wp + b) % sz := by
  intro h
  have h3 : a ≡ b [MOD sz] := Nat.ModEq.add_left_cancel' wp h
  have h4 : a % sz = b % sz := h3
  rw [Nat.mod_eq_of_lt ha, Nat.mod_eq_of_lt hb] at h4
  exact hne h4

/-- `memWrite` preserves the storage length. -/
theorem memWrite_length (chunk : List Nat) :
    ∀ (buf : List Nat) (pos : Nat), (memWrite buf pos chunk).length = buf.length := by
  induction chunk with
  | nil => intro buf pos; rfl
  | cons b rest ih =>
    intro buf pos
    simp only [memWrite, ih, List.length_set]

/-- `memWrite` leaves bytes outside the written window unchanged. -/
theorem memWrite_getD_out (chunk : List Nat) :
    ∀ (buf : List Nat) (pos i : Nat), (i < pos ∨ pos + chunk.length ≤ i) →
      (memWrite buf pos chunk).getD i 0 = buf.getD i 0 := by
  induction chunk with
  | nil => intro buf pos i _; rfl
  | cons b rest ih =>
    intro buf pos i hi
    simp only [List.length_cons] at hi
    simp only [memWrite]
    rw [ih _ _ _ (by omega)]
    have hne : i ≠ pos := by omega
    simp only [List.getD_eq_getElem?_getD, List.getElem?_set_ne (by omega : pos ≠ i)]

/-- `memWrite` stores the chunk inside the written window. -/
theorem memWrite_getD_in (chunk : List Nat) :
    ∀ (buf : List Nat) (pos j : Nat), j < chunk.length → pos + chunk.length ≤ buf.length →
      (memWrite buf pos chunk).getD (pos + j) 0 = chunk.getD j 0 := by
  induction chunk with
  | nil => intro buf pos j hj _; simp at hj
  | cons b rest ih =>
    intro buf pos j hj hle
    simp only [List.length_cons] at hj hle
    simp only [memWrite]
    match j with
    | 0 =>
      rw [memWrite_getD_out rest _ _ _ (Or.inl (by omega))]
      simp only [Nat.add_zero, List.getD_eq_getElem?_getD]
      rw [List.getElem?_set_self (by omega)]
      simp
    | j + 1 =>
      have h := ih (buf.set pos b) (pos + 1) j (by omega) (by rw [List.length_set]; omega)
      rw [(by omega : pos + (j + 1) = pos + 1 + j), h]
      rfl

/-- Full effect of the ring-write loop: sizes are preserved, the write
position advances modulo the capacity, the written bytes land at
consecutive ring positions, and every other byte is untouched
(for writes of at most one full lap). -/
theorem RingBuffer_write_loop_spec (sz : Nat) :
    ∀ (fuel : Nat) (ring : RingBuffer) (s : List Nat),
      ring.size = sz → ring.buffer.length = sz → ring.write_pos < sz →
      s.length ≤ sz → s.length ≤ fuel →
      (RingBuffer_write_loop fuel ring s).size = sz ∧
      (RingBuffer_write_loop fuel ring s).buffer.length = sz ∧
      (RingBuffer_write_loop fuel ring s).write_pos = (ring.write_pos + s.length) % sz ∧
      (∀ t, t < s.length →
        (RingBuffer_write_loop fuel ring s).buffer.getD ((ring.write_pos + t) % sz) 0 =
          s.getD t 0) ∧
      (∀ i, (∀ t, t < s.length → (ring.write_pos + t) % sz ≠ i) →
        (RingBuffer_write_loop fuel ring s).buffer.getD i 0 = ring.buffer.getD i 0) := by
  intro fuel
  induction fuel with
  | zero =>
    intro ring s h1 h2 h3 h4 h5
    obtain rfl : s = [] := List.eq_nil_of_length_eq_zero (by omega)
    have hloop : RingBuffer_write_loop 0 ring [] = ring := rfl
    rw [hloop]
    refine ⟨h1, h2, ?_, fun t ht => by simp at ht, fun i _ => rfl⟩
    rw [List.length_nil, Nat.add_zero, Nat.mod_eq_of_lt h3]
  | succ fuel ih =>
    intro ring s h1 h2 h3 h4 h5
    by_cases hs : s.isEmpty = true
    · obtain rfl : s = [] := by
        cases s
        · rfl
        · simp at hs
      have hloop : RingBuffer_write_loop (fuel + 1) ring [] = ring := rfl
      rw [hloop]
      refine ⟨h1, h2, ?_, fun t ht => by simp at ht, fun i _ => rfl⟩
      rw [List.length_nil, Nat.add_zero, Nat.mod_eq_of_lt h3]
    · have hpos : 0 < s.length := by
        cases s
        · simp at hs
        · simp
      have hszpos : 0 < sz := by omega
      have htc0 : ¬ (min (ring.size - ring.write_pos) s.length = 0) := by
        rw [h1]
        omega
      set tc := min (ring.size - ring.write_pos) s.length with htc_def
      have htc1 : 1 ≤ tc := by omega
      have htc2 : tc ≤ s.length := Nat.min_le_right _ _
      have htc3 : ring.write_pos + tc ≤ sz := by
        rw [htc_def, h1]
        omega
      have hchunklen : (s.take tc).length = tc := by
        rw [List.length_take]
        omega
      set ring2 : RingBuffer :=
        (if ring.size ≤ ring.write_pos + tc then
          { ring with
              buffer := memWrite ring.buffer ring.write_pos (s.take tc)
              write_pos := 0
              filled := true }
        else
          { ring with
              buffer := memWrite ring.buffer ring.write_pos (s.take tc)
              write_pos := ring.write_pos + tc }) with hring2
      have hstep : RingBuffer_write_loop (fuel + 1) ring s =
          RingBuffer_write_loop fuel ring2 (s.drop tc) := by
        rw [hring2]
        simp only [RingBuffer_write_loop, if_neg hs, if_neg htc0]
      have hr2size : ring2.size = sz := by
        rw [hring2]
        split
        · exact h1
        · exact h1
      have hr2buf : ring2.buffer = memWrite ring.buffer ring.write_pos (s.take tc) := by
        rw [hring2]
        split
        · rfl
        · rfl
      have hr2wp : ring2.write_pos = (ring.write_pos + tc) % sz := by
        rw [hring2]
        split
        case isTrue hwrap =>
          rw [h1] at hwrap
          have h9 : ring.write_pos + tc = sz := by omega
          show (0 : Nat) = (ring.write_pos + tc) % sz
          rw [h9, Nat.mod_self]
        case isFalse hwrap =>
          rw [h1] at hwrap
          show ring.write_pos + tc = (ring.write_pos + tc) % sz
          rw [Nat.mod_eq_of_lt (by omega)]
      have hr2buflen : ring2.buffer.length = sz := by
        rw [hr2buf, memWrite_length, h2]
      have hr2wplt : ring2.write_pos < sz := by
        rw [hr2wp]
        exact Nat.mod_lt _ hszpos
      have hposmap : ∀ x, (ring2.write_pos + x) % sz = (ring.write_pos + (tc + x)) % sz := by
        intro x
        rw [hr2wp, Nat.mod_add_mod, Nat.add_assoc]
      have hb2 : ∀ t, t < tc → ring2.buffer.getD (ring.write_pos + t) 0 = s.getD t 0 := by
        intro t ht
        rw [hr2buf, memWrite_getD_in _ _ _ _ (by omega) (by rw [h2, hchunklen]; omega),
          getD_take _ _ _ (by omega)]
      have hb3 : ∀ i, (i < ring.write_pos ∨ ring.write_pos + tc ≤ i) →
          ring2.buffer.getD i 0 = ring.buffer.getD i 0 := by
        intro i hi
        rw [hr2buf, memWrite_getD_out _ _ _ _ (by rw [hchunklen]; omega)]
      obtain ⟨i1, i2, i3, i4, i5⟩ := ih ring2 (s.drop tc) hr2size hr2buflen hr2wplt
        (by rw [List.length_drop]; omega) (by rw [List.length_drop]; omega)
      rw [hstep]
      refine ⟨i1, i2, ?_, ?_, ?_⟩
      · rw [i3, List.length_drop, hr2wp, Nat.mod_add_mod,
          (by omega : ring.write_pos + tc + (s.length - tc) = ring.write_pos + s.length)]
      · intro t ht
        by_cases htlt : t < tc
        · have hnc : ∀ t2, t2 < (s.drop tc).length →
              (ring2.write_pos + t2) % sz ≠ (ring.write_pos + t) % sz := by
            intro t2 ht2
            rw [List.length_drop] at ht2
            rw [hposmap t2]
            exact ring_pos_ne ring.write_pos sz (tc + t2) t (by omega) (by omega) (by omega)
          rw [i5 _ hnc, Nat.mod_eq_of_lt (by omega : ring.write_pos + t < sz)]
          exact hb2 t htlt
        · have hpt : (ring.write_pos + t) % sz = (ring2.write_pos + (t - tc)) % sz := by
            have h := hposmap (t - tc)
            rw [(by omega : tc + (t - tc) = t)] at h
            exact h.symm
          rw [hpt, i4 (t - tc) (by rw [List.length_drop]; omega), getD_drop,
            (by omega : tc + (t - tc) = t)]
      · intro i hi
        have hnc : ∀ t2, t2 < (s.drop tc).length → (ring2.write_pos + t2) % sz ≠ i := by
          intro t2 ht2
          rw [List.length_drop] at ht2
          rw [hposmap t2]
          exact hi (tc + t2) (by omega)
        rw [i5 _ hnc]
        apply hb3
        by_cases hlow : i < ring.write_pos
        · exact Or.inl hlow
        · refine Or.inr ?_
          by_contra hmid
          exact hi (i - ring.write_pos) (by omega)
            (by rw [Nat.mod_eq_of_lt (by omega)]; omega)

/-- Effect of `RingBuffer_write` (specialisation of the loop spec). -/
theorem RingBuffer_write_spec (ring : RingBuffer) (s : List Nat) (sz : Nat)
    (h1 : ring.size = sz) (h2 : ring.buffer.length = sz) (h3 : ring.write_pos < sz)
    (h4 : s.length ≤ sz) :
    (RingBuffer_write ring s).size = sz ∧
    (RingBuffer_write ring s).buffer.length = sz ∧
    (RingBuffer_write ring s).write_pos = (ring.write_pos + s.length) % sz ∧
    (∀ t, t < s.length →
      (RingBuffer_write ring s).buffer.getD ((ring.write_pos + t) % sz) 0 = s.getD t 0) ∧
    (∀ i, (∀ t, t < s.length → (ring.write_pos + t) % sz ≠ i) →
      (RingBuffer_write ring s).buffer.getD i 0 = ring.buffer.getD i 0) :=
  RingBuffer_write_loop_spec sz s.length ring s h1 h2 h3 h4 le_rfl

theorem ringReadSeq_length (ring : RingBuffer) (offset n : Nat) :
    (ringReadSeq ring offset n).length = n := by
  simp [ringReadSeq]

theorem ringReadSeq_getD (ring : RingBuffer) (offset n i : Nat) (hi : i < n) :
    (ringReadSeq ring offset n).getD i 0 =
      ring.buffer.getD ((ring.write_pos + (offset + i)) % ring.size) 0 := by
  simp only [ringReadSeq, List.getD_eq_getElem?_getD, List.getElem?_map]
  rw [List.getElem?_range hi]
  rfl

/-- Two lists agreeing at every index (with default 0) are equal. -/
theorem list_eq_of_getD (l1 l2 : List Nat) (hlen : l1.length = l2.length)
    (h : ∀ i, i < l1.length → l1.getD i 0 = l2.getD i 0) : l1 = l2 := by
  apply List.ext_getElem hlen
  intro i hi1 hi2
  have h3 := h i hi1
  rwa [List.getD_eq_getElem?_getD, List.getD_eq_getElem?_getD,
    List.getElem?_eq_getElem hi1, List.getElem?_eq_getElem hi2] at h3

/-- After replaying the first `j` bytes of a copy into the ring, the
remaining `n - j` bytes readable at `offset` from the new write position
are exactly the dropped tail of the original copy sequence (the write
never clobbers its own pending source). -/
theorem ringReadSeq_write_shift (ring : RingBuffer) (offset n j sz : Nat)
    (h1 : ring.size = sz) (h2 : ring.buffer.length = sz) (h3 : ring.write_pos < sz)
    (hofs : offset + n ≤ sz) (hj : j ≤ n) :
    ringReadSeq (RingBuffer_write ring ((ringReadSeq ring offset n).take j)) offset (n - j) =
      (ringReadSeq ring offset n).drop j := by
  obtain ⟨w1, w2, w3, w4, w5⟩ := RingBuffer_write_spec ring
    ((ringReadSeq ring offset n).take j) sz h1 h2 h3
    (by rw [List.length_take, ringReadSeq_length]; omega)
  rw [List.length_take, ringReadSeq_length] at w3 w5
  apply list_eq_of_getD
  · rw [ringReadSeq_length, List.length_drop, ringReadSeq_length]
  · intro i hi
    rw [ringReadSeq_length] at hi
    rw [ringReadSeq_getD _ _ _ _ hi, w1, w3, Nat.mod_add_mod,
      (by omega : ring.write_pos + min j n + (offset + i) =
        ring.write_pos + (min j n + (offset + i)))]
    rw [w5 _ ?_]
    · rw [getD_drop, ringReadSeq_getD _ _ _ _ (by omega : j + i < n), h1,
        (by omega : min j n + (offset + i) = offset + (j + i))]
    · intro t ht
      exact ring_pos_ne _ _ _ _ (by omega) (by omega) (by omega)

/-- The physically contiguous chunk the copy loop reads is an initial
part of the copy sequence. -/
theorem copy_chunk_eq (ring : RingBuffer) (offset n sz : Nat)
    (h1 : ring.size = sz) (h2 : ring.buffer.length = sz) (h3 : ring.write_pos < sz)
    (hofs : offset + n ≤ sz) :
    (ring.buffer.drop ((ring.write_pos + offset) % sz)).take
        (min (sz - (ring.write_pos + offset) % sz) n) =
      (ringReadSeq ring offset n).take (min (sz - (ring.write_pos + offset) % sz) n) := by
  have hszpos : 0 < sz := by omega
  have hrplt : (ring.write_pos + offset) % sz < sz := Nat.mod_lt _ hszpos
  apply list_eq_of_getD
  · rw [List.length_take, List.length_drop, List.length_take, ringReadSeq_length, h2]
    omega
  · intro i hi
    rw [List.length_take, List.length_drop, h2] at hi
    have hito : i < min (sz - (ring.write_pos + offset) % sz) n := by omega
    rw [getD_drop_take _ _ _ _ hito, getD_take _ _ _ hito,
      ringReadSeq_getD _ _ _ _ (by omega), h1]
    have hpos : (ring.write_pos + (offset + i)) % sz = (ring.write_pos + offset) % sz + i := by
      rw [(by omega : ring.write_pos + (offset + i) = ring.write_pos + offset + i),
        ← Nat.mod_add_mod, Nat.mod_eq_of_lt (by omega)]
    rw [hpos]

/-- Effect of the decompressor's `ring_writer` when a real output window
is present: the accepted count is `min out_size src.length`, the accepted
prefix is appended to the window, and the remaining room shrinks by it. -/
theorem gkeydecomp_ring_writer_some (p : GKeyParameters) (t : Nat) (l src : List Nat)
    (hp : p.out_buffer = some l) :
    gkeydecomp_ring_writer (p, t) src =
      (({ p with
            out_buffer := some (l ++ src.take (min p.out_size src.length))
            out_size := p.out_size - min p.out_size src.length },
        t + min p.out_size src.length), min p.out_size src.length) := by
  have hn : (if p.out_size < src.length then p.out_size else src.length) =
      min p.out_size src.length := by
    split <;> omega
  simp only [gkeydecomp_ring_writer, hp, hn]

/-- Unrolling of one running round of the ring-copy loop. -/
theorem RingBuffer_copy_loop_succ {σ : Type} (cb : σ → List Nat → σ × Nat)
    (offset n fuel : Nat) (ring : RingBuffer) (st : σ) (total : Nat)
    (rp tc : Nat) (s : List Nat) (st' : σ) (copied : Nat)
    (hrp : rp = (ring.write_pos + offset) &&& (ring.size - 1))
    (htc : tc = min (ring.size - rp) (n - total))
    (hs : s = (ring.buffer.drop rp).take tc)
    (hcb : cb st s = (st', copied))
    (htot : total < n) :
    RingBuffer_copy_loop (some cb) offset n (fuel + 1) ring st total =
      if tc ≤ copied ∧ 0 < tc then
        RingBuffer_copy_loop (some cb) offset n fuel
          (RingBuffer_write ring (s.take copied)) st' (total + copied)
      else (RingBuffer_write ring (s.take copied), st', total + copied) := by
  subst hrp
  subst htc
  subst hs
  simp only [RingBuffer_copy_loop, htot, if_true, hcb]

/-- The ring-copy loop is the identity once `total` has reached `n`. -/
theorem gkeydecomp_copy_loop_spec_exit (offset n sz : Nat) (ring : RingBuffer)
    (p : GKeyParameters) (l : List Nat) (t total : Nat)
    (hr1 : ring.size = sz) (hr2 : ring.buffer.length = sz) (hr3 : ring.write_pos < sz)
    (hp : p.out_buffer = some l) (h0 : n - total = 0)
    (r : RingBuffer × (GKeyParameters × Nat) × Nat) (hr : r = (ring, (p, t), total)) :
    r.2 =
      (({ p with
            out_buffer := some (l ++ (ringReadSeq ring offset (n - total)).take
                (min p.out_size (n - total)))
            out_size := p.out_size - min p.out_size (n - total) },
        t + min p.out_size (n - total)),
       total + min p.out_size (n - total)) ∧
    r.1.size = sz ∧ r.1.buffer.length = sz ∧
    r.1.write_pos = (ring.write_pos + min p.out_size (n - total)) % sz ∧
    ringReadSeq r.1 offset ((n - total) - min p.out_size (n - total)) =
      (ringReadSeq ring offset (n - total)).drop (min p.out_size (n - total)) := by
  subst hr
  rw [h0]
  refine ⟨?_, hr1, hr2, ?_, ?_⟩
  · simp only [Nat.min_zero, List.take_zero, List.append_nil, Nat.sub_zero, Nat.add_zero]
    rw [← hp]
  · simp only [Nat.min_zero, Nat.add_zero]
    exact (Nat.mod_eq_of_lt hr3).symm
  · simp [ringReadSeq]

/-- Full effect of the ring-copy loop driven by the decompressor's
writer on a real output window: exactly `min out_size remaining` bytes
are accepted, appended to the window, replayed into the ring and counted,
and the bytes still owed by the copy then read back at the same offset
from the advanced write position as the dropped tail of the original
copy sequence. -/
theorem gkeydecomp_copy_loop_spec (offset n sz k : Nat) (hsz : sz = 2 ^ k) :
    ∀ (fuel : Nat) (ring : RingBuffer) (p : GKeyParameters) (l : List Nat) (t total : Nat),
      ring.size = sz → ring.buffer.length = sz → ring.write_pos < sz →
      p.out_buffer = some l → offset + (n - total) ≤ sz → n - total ≤ fuel →
      (RingBuffer_copy_loop (some gkeydecomp_ring_writer) offset n fuel ring (p, t)
          total).2 =
        (({ p with
              out_buffer := some (l ++ (ringReadSeq ring offset (n - total)).take
                  (min p.out_size (n - total)))
              out_size := p.out_size - min p.out_size (n - total) },
          t + min p.out_size (n - total)),
         total + min p.out_size (n - total)) ∧
      (RingBuffer_copy_loop (some gkeydecomp_ring_writer) offset n fuel ring (p, t)
          total).1.size = sz ∧
      (RingBuffer_copy_loop (some gkeydecomp_ring_writer) offset n fuel ring (p, t)
          total).1.buffer.length = sz ∧
      (RingBuffer_copy_loop (some gkeydecomp_ring_writer) offset n fuel ring (p, t)
          total).1.write_pos = (ring.write_pos + min p.out_size (n - total)) % sz ∧
      ringReadSeq (RingBuffer_copy_loop (some gkeydecomp_ring_writer) offset n fuel ring
          (p, t) total).1 offset ((n - total) - min p.out_size (n - total)) =
        (ringReadSeq ring offset (n - total)).drop (min p.out_size (n - total)) := by
  have hszpos : 0 < sz := by rw [hsz]; positivity
  intro fuel
  induction fuel with
  | zero =>
    intro ring p l t total hr1 hr2 hr3 hp hofs hfuel
    exact gkeydecomp_copy_loop_spec_exit offset n sz ring p l t total hr1 hr2 hr3 hp
      (by omega) _ rfl
  | succ fuel ih =>
    intro ring p l t total hr1 hr2 hr3 hp hofs hfuel
    by_cases htot : total < n
    case neg =>
      refine gkeydecomp_copy_loop_spec_exit offset n sz ring p l t total hr1 hr2 hr3 hp
        (by omega) _ ?_
      simp [RingBuffer_copy_loop, htot]
    case pos =>
      have hrp0 : (ring.write_pos + offset) &&& (ring.size - 1) =
          (ring.write_pos + offset) % sz := by
        rw [hr1, hsz, Nat.and_pow_two_sub_one_eq_mod]
      set rp := (ring.write_pos + offset) % sz with hrp
      set tc := min (sz - rp) (n - total) with htc
      set S := ringReadSeq ring offset (n - total) with hS
      have hrplt : rp < sz := by rw [hrp]; exact Nat.mod_lt _ hszpos
      have htcpos : 0 < tc := by rw [htc]; omega
      have hSlen : S.length = n - total := by rw [hS, ringReadSeq_length]
      have hchunk : (ring.buffer.drop rp).take tc = S.take tc := by
        have hcc := copy_chunk_eq ring offset (n - total) sz hr1 hr2 hr3 hofs
        rw [← hrp, ← htc, ← hS] at hcc
        exact hcc
      set a := min p.out_size tc with ha
      have hw := gkeydecomp_ring_writer_some p t l ((ring.buffer.drop rp).take tc) hp
      have hlen : ((ring.buffer.drop rp).take tc).length = tc := by
        rw [List.length_take, List.length_drop, hr2]; omega
      rw [hlen, ← ha] at hw
      have hrpm : rp = (ring.write_pos + offset) &&& (ring.size - 1) := by
        rw [hrp0]
      have htcm : tc = min (ring.size - rp) (n - total) := by rw [hr1]
      rw [RingBuffer_copy_loop_succ gkeydecomp_ring_writer offset n fuel ring (p, t) total
        rp tc _ _ a hrpm htcm rfl hw htot]
      have hSa : ((ring.buffer.drop rp).take tc).take a = S.take a := by
        rw [hchunk, List.take_take, min_eq_left (by omega : a ≤ tc)]
      rw [hSa]
      obtain ⟨w1, w2, w3, w4, w5⟩ := RingBuffer_write_spec ring (S.take a) sz hr1 hr2 hr3
        (by rw [List.length_take, hSlen]; omega)
      have hwplen : (S.take a).length = a := by rw [List.length_take, hSlen]; omega
      rw [hwplen] at w3
      have hshift := ringReadSeq_write_shift ring offset (n - total) a sz hr1 hr2 hr3 hofs
        (by omega)
      rw [← hS] at hshift
      by_cases hcase : tc ≤ p.out_size
      · rw [if_pos ⟨by omega, htcpos⟩]
        have IH := ih (RingBuffer_write ring (S.take a))
          { p with out_buffer := some (l ++ S.take a), out_size := p.out_size - a }
          (l ++ S.take a) (t + a) (total + a) w1 w2
          (by rw [w3]; exact Nat.mod_lt _ hszpos) rfl (by omega) (by omega)
        have hpo2 : ({ p with
            out_buffer := some (l ++ S.take a)
            out_size := p.out_size - a } : GKeyParameters).out_size = p.out_size - a := rfl
        rw [hpo2] at IH
        have harith : n - (total + a) = n - total - a := by omega
        rw [harith, hshift] at IH
        set q' := min (p.out_size - a) (n - total - a) with hq'
        obtain ⟨I1, I2, I3, I4, I5⟩ := IH
        have hq : min p.out_size (n - total) = a + q' := by omega
        refine ⟨?_, I2, I3, ?_, ?_⟩
        · rw [I1, hq]
          rw [show (l ++ S.take a) ++ (S.drop a).take q' = l ++ S.take (a + q') by
            rw [List.append_assoc, ← List.take_add]]
          rw [Nat.sub_sub, Nat.add_assoc, Nat.add_assoc]
        · rw [I4, w3, Nat.mod_add_mod, hq, Nat.add_assoc]
        · rw [hq, ← Nat.sub_sub, I5, List.drop_drop, Nat.add_comm]
      · rw [if_neg (fun hcon => absurd hcon.1 (by omega))]
        have hq : min p.out_size (n - total) = a := by omega
        refine ⟨?_, w1, w2, ?_, ?_⟩
        · rw [hq]
        · rw [hq]
          exact w3
        · rw [hq]
          exact hshift

/-- With an empty input window and too few buffered bits, `read_bits`
fails without changing anything (only the input cursor is re-stored). -/
theorem read_bits_empty (d : GKeyDecomp) (p : GKeyParameters) (nbits : Nat)
    (hn : d.acc_nbits < nbits) (hin : p.in_size = 0) :
    read_bits d p nbits = (d, { p with in_size := 0 }, none) := by
  have h1 : read_bits_loop nbits p.in_buffer p.in_size d.in_total d.acc d.acc_nbits =
      (p.in_buffer, 0, d.in_total, d.acc, d.acc_nbits, false) := by
    rw [hin, read_bits_loop, if_pos hn]
  have hle : ¬ nbits ≤ d.acc_nbits := by omega
  simp only [read_bits, h1, hle, if_false]
  rfl

/-- Statuses a compressor step can report, with state and accumulator
facts on `Finished`: only `cstep_Flush` reports `Finished`, it preserves
the `Flush` state, and leaves an empty bit count. -/
theorem gkeycomp_step_status (flush : Bool) (c : GKeyComp) (p : GKeyParameters) :
    ((gkeycomp_step flush c p).status = .OK ∨
      (gkeycomp_step flush c p).status = .BufferOverflow ∨
      (gkeycomp_step flush c p).status = .Aborted ∨
      (gkeycomp_step flush c p).status = .Finished) ∧
    ((gkeycomp_step flush c p).status = .Finished →
      (gkeycomp_step flush c p).comp.state = .Flush ∧
      (gkeycomp_step flush c p).comp.acc_nbits = 0) := by
  have hPutSize : ∀ c' p', ((cstep_PutSize c' p').status = .OK ∨
      (cstep_PutSize c' p').status = .BufferOverflow) := by
    intro c' p'
    simp only [cstep_PutSize]
    rcases write_bits c' p' (some (GKey_get_read_size_bits c'.history_log_2 c'.read_offset))
        c'.read_size with ⟨c'', p'', ok⟩
    cases ok <;> simp
  have hPutOffset : ∀ c' p', ((cstep_PutOffset c' p').status = .OK ∨
      (cstep_PutOffset c' p').status = .BufferOverflow) := by
    intro c' p'
    simp only [cstep_PutOffset]
    rcases write_bits c' p' (some (c'.history_log_2 + 1)) ((c'.read_offset <<< 1) ||| 1)
      with ⟨c'', p'', ok⟩
    cases ok
    · simp
    · exact hPutSize _ _
  have hFindSeq : ∀ fl c' p', ((cstep_FindSequence fl c' p').status = .OK ∨
      (cstep_FindSequence fl c' p').status = .BufferOverflow) := by
    intro fl c' p'
    simp only [cstep_FindSequence]
    rcases (if fl then (c', p', true) else find_sequence c' p') with ⟨c1, p1, ok⟩
    cases ok with
    | false => simp
    | true =>
      by_cases h0 : c1.read_size = 0
      · simp only [if_pos rfl, if_pos h0]
        by_cases hin : 0 < p1.in_size
        · simp [hin]
        · rcases fl with _ | _ <;> simp [hin]
      · simp only [if_pos rfl, if_neg h0]
        by_cases hlit : c1.read_size * 9 <
            c1.history_log_2 + GKey_get_read_size_bits c1.history_log_2 c1.read_offset + 1
        · simp [hlit]
        · simp only [if_neg hlit]
          exact hPutOffset _ _
  have hProgress : ∀ fl c' p', ((cstep_Progress fl c' p').status = .OK ∨
      (cstep_Progress fl c' p').status = .BufferOverflow ∨
      (cstep_Progress fl c' p').status = .Aborted) := by
    intro fl c' p'
    simp only [cstep_Progress]
    rcases p'.prog_cb with _ | cb
    · rcases hFindSeq fl { c' with state := .FindSequence } p' with h | h <;> simp [h]
    · simp only
      by_cases hcb : cb c'.in_total c'.out_total
      · simp only [hcb, if_true]
        rcases hFindSeq fl { c' with state := .FindSequence } p' with h | h <;> simp [h]
      · simp [hcb]
  cases hst : c.state
  case NextSequence =>
    simp only [gkeycomp_step, hst, cstep_NextSequence]
    rcases hProgress flush _ p with h | h | h <;> rw [h] <;> simp
  case Progress =>
    simp only [gkeycomp_step, hst]
    rcases hProgress flush c p with h | h | h <;> rw [h] <;> simp
  case FindSequence =>
    simp only [gkeycomp_step, hst]
    rcases hFindSeq flush c p with h | h <;> rw [h] <;> simp
  case PutOffset =>
    simp only [gkeycomp_step, hst]
    rcases hPutOffset c p with h | h <;> rw [h] <;> simp
  case PutSize =>
    simp only [gkeycomp_step, hst]
    rcases hPutSize c p with h | h <;> rw [h] <;> simp
  case PutByte =>
    simp only [gkeycomp_step, hst, cstep_PutByte]
    rcases write_bits c p (some 9) (p.in_buffer.headD 0 <<< 1) with ⟨c'', p'', ok⟩
    cases ok <;> simp
  case PutBytes =>
    simp only [gkeycomp_step, hst, cstep_PutBytes]
    split <;> simp
  case Flush =>
    have h := cstep_Flush_analysis c p
    simp only [gkeycomp_step, hst]
    rcases h.1 with h1 | h1 <;> rw [h1] <;> simp_all [hst]

/-- Unfolding of a non-zero-fuel driver round of the compressor. -/
theorem gkeycomp_loop_succ (fuel : Nat) (flush : Bool) (c : GKeyComp) (p : GKeyParameters) :
    gkeycomp_loop (fuel + 1) flush c p =
      (if (gkeycomp_step flush c p).status = .OK ∧ (gkeycomp_step flush c p).input then
        gkeycomp_loop fuel flush (gkeycomp_step flush c p).comp (gkeycomp_step flush c p).params
      else
        ((gkeycomp_step flush c p).comp, (gkeycomp_step flush c p).params,
          (gkeycomp_step flush c p).status)) :=
  rfl

/-- The compressor driver only ever reports `OK`, `BufferOverflow`,
`Aborted` or `Finished`; and `Finished` pins the machine in state
`Flush` with an empty bit count. -/
theorem gkeycomp_loop_status (fuel : Nat) :
    ∀ (flush : Bool) (c : GKeyComp) (p : GKeyParameters),
      ((gkeycomp_loop fuel flush c p).2.2 = .OK ∨
        (gkeycomp_loop fuel flush c p).2.2 = .BufferOverflow ∨
        (gkeycomp_loop fuel flush c p).2.2 = .Aborted ∨
        (gkeycomp_loop fuel flush c p).2.2 = .Finished) ∧
      ((gkeycomp_loop fuel flush c p).2.2 = .Finished →
        (gkeycomp_loop fuel flush c p).1.state = .Flush ∧
        (gkeycomp_loop fuel flush c p).1.acc_nbits = 0) := by
  induction fuel with
  | zero =>
    intro flush c p
    exact ⟨Or.inl rfl, fun h => nomatch h⟩
  | succ fuel ih =>
    intro flush c p
    rw [gkeycomp_loop_succ]
    by_cases hc : (gkeycomp_step flush c p).status = .OK ∧ (gkeycomp_step flush c p).input
    · rw [if_pos hc]
      exact ih flush _ _
    · rw [if_neg hc]
      have h := gkeycomp_step_status flush c p
      exact ⟨h.1, fun hf => h.2 hf⟩

/-- A flush on an empty accumulator succeeds and changes nothing. -/
theorem cstep_Flush_idle (c : GKeyComp) (p : GKeyParameters) (h : c.acc_nbits = 0) :
    cstep_Flush c p = ⟨c, p, .Finished, true⟩ := by
  simp only [cstep_Flush, write_bits, write_bits_drain, h, write_bits_drain_loop]
  simp
  rw [← h]

/-- Transitivity of the input/output conservation shape: consumed counts
add, produced suffixes append. -/
theorem io_conserve_comp {it1 it2 it3 : Nat} {ib1 ib2 ib3 : List Nat} {is1 is2 is3 : Nat}
    {ot1 ot2 ot3 : Nat} {ob1 ob2 ob3 : Option (List Nat)} {os1 os2 os3 : Nat}
    (h12 : ∃ c w, it2 = it1 + c ∧ ib2 = ib1.drop c ∧ is1 = is2 + c ∧ ot2 = ot1 + w ∧
      (ob1 = none → ob2 = none ∧ os2 = os1 + w) ∧
      (∀ l, ob1 = some l → ∃ s2, s2.length = w ∧ ob2 = some (l ++ s2) ∧ os1 = os2 + w))
    (h23 : ∃ c w, it3 = it2 + c ∧ ib3 = ib2.drop c ∧ is2 = is3 + c ∧ ot3 = ot2 + w ∧
      (ob2 = none → ob3 = none ∧ os3 = os2 + w) ∧
      (∀ l, ob2 = some l → ∃ s2, s2.length = w ∧ ob3 = some (l ++ s2) ∧ os2 = os3 + w)) :
    ∃ c w, it3 = it1 + c ∧ ib3 = ib1.drop c ∧ is1 = is3 + c ∧ ot3 = ot1 + w ∧
      (ob1 = none → ob3 = none ∧ os3 = os1 + w) ∧
      (∀ l, ob1 = some l → ∃ s2, s2.length = w ∧ ob3 = some (l ++ s2) ∧ os1 = os3 + w) := by
  obtain ⟨c1, w1, a1, a2, a3, a4, a5, a6⟩ := h12
  obtain ⟨c2, w2, b1, b2, b3, b4, b5, b6⟩ := h23
  refine ⟨c1 + c2, w1 + w2, by omega, ?_, by omega, by omega, ?_, ?_⟩
  · rw [b2, a2, List.drop_drop, Nat.add_comm]
  · intro hn
    obtain ⟨e1, e2⟩ := a5 hn
    obtain ⟨f1, f2⟩ := b5 e1
    exact ⟨f1, by omega⟩
  · intro l hl
    obtain ⟨s2, e1, e2, e3⟩ := a6 l hl
    obtain ⟨s3, f1, f2, f3⟩ := b6 (l ++ s2) e2
    refine ⟨s2 ++ s3, ?_, ?_, by omega⟩
    · rw [List.length_append]
      omega
    · rw [f2, List.append_assoc]

/-- The conservation shape holds reflexively. -/
theorem io_conserve_refl (it : Nat) (ib : List Nat) (is : Nat) (ot : Nat)
    (ob : Option (List Nat)) (os : Nat) :
    ∃ c w, it = it + c ∧ ib = ib.drop c ∧ is = is + c ∧ ot = ot + w ∧
      (ob = none → ob = none ∧ os = os + w) ∧
      (∀ l, ob = some l → ∃ s2, s2.length = w ∧ ob = some (l ++ s2) ∧ os = os + w) :=
  ⟨0, 0, rfl, rfl, rfl, rfl, fun h => ⟨h, rfl⟩,
    fun l hl => ⟨[], rfl, by rw [hl, List.append_nil], rfl⟩⟩

/-- The byte-refill loop consumes from the input cursor, the window size
and the running total in lockstep. -/
theorem read_bits_loop_conserve (nbits : Nat) :
    ∀ (in_size : Nat) (in_buffer : List Nat) (in_total acc acc_nbits : Nat),
      ∃ c,
        (read_bits_loop nbits in_buffer in_size in_total acc acc_nbits).2.2.1 =
          in_total + c ∧
        (read_bits_loop nbits in_buffer in_size in_total acc acc_nbits).1 =
          in_buffer.drop c ∧
        in_size = (read_bits_loop nbits in_buffer in_size in_total acc acc_nbits).2.1 + c := by
  intro in_size
  induction in_size with
  | zero =>
    intro in_buffer in_total acc acc_nbits
    refine ⟨0, ?_, ?_, ?_⟩ <;> (rw [read_bits_loop]; split <;> rfl)
  | succ n ih =>
    intro in_buffer in_total acc acc_nbits
    by_cases h : acc_nbits < nbits
    · have hunf : read_bits_loop nbits in_buffer (n + 1) in_total acc acc_nbits =
          read_bits_loop nbits in_buffer.tail n (in_total + 1)
            (acc ||| (in_buffer.headD 0 <<< acc_nbits)) (acc_nbits + 8) := by
        rw [read_bits_loop, if_pos h]
      obtain ⟨c, h1, h2, h3⟩ := ih in_buffer.tail (in_total + 1)
        (acc ||| (in_buffer.headD 0 <<< acc_nbits)) (acc_nbits + 8)
      rw [hunf]
      refine ⟨c + 1, by omega, ?_, by omega⟩
      rw [h2, ← List.drop_one, List.drop_drop, Nat.add_comm 1 c]
    · have hunf : read_bits_loop nbits in_buffer (n + 1) in_total acc acc_nbits =
          (in_buffer, n + 1, in_total, acc, acc_nbits, true) := by
        rw [read_bits_loop, if_neg h]
      rw [hunf]
      exact ⟨0, rfl, rfl, rfl⟩

/-- `read_bits` conserves the cursors: input moves in lockstep, output is
untouched. -/
theorem read_bits_conserve (d : GKeyDecomp) (p : GKeyParameters) (nbits : Nat) :
    ∃ c w,
      (read_bits d p nbits).1.in_total = d.in_total + c ∧
      (read_bits d p nbits).2.1.in_buffer = p.in_buffer.drop c ∧
      p.in_size = (read_bits d p nbits).2.1.in_size + c ∧
      (read_bits d p nbits).1.out_total = d.out_total + w ∧
      (p.out_buffer = none → (read_bits d p nbits).2.1.out_buffer = none ∧
        (read_bits d p nbits).2.1.out_size = p.out_size + w) ∧
      (∀ l, p.out_buffer = some l → ∃ s2, s2.length = w ∧
        (read_bits d p nbits).2.1.out_buffer = some (l ++ s2) ∧
        p.out_size = (read_bits d p nbits).2.1.out_size + w) := by
  obtain ⟨c, h1, h2, h3⟩ := read_bits_loop_conserve nbits p.in_size p.in_buffer d.in_total
    d.acc d.acc_nbits
  obtain ⟨-, -, -, -, -, hot, hob, hos, -⟩ := read_bits_preserves d p nbits
  refine ⟨c, 0, h1, h2, h3, by rw [hot]; exact rfl, ?_, ?_⟩
  · intro hn
    exact ⟨by rw [hob, hn], by rw [hos]; exact rfl⟩
  · intro l hl
    exact ⟨[], rfl, by rw [hob, hl, List.append_nil], by rw [hos]; exact rfl⟩

/-- The decompressor's `ring_writer` conserves the output cursor: the
accepted bytes land at the end of the window, the room shrinks by the
same count, the running total grows by it; the input is untouched. -/
theorem gkeydecomp_ring_writer_conserve (p : GKeyParameters) (t : Nat) (src : List Nat) :
    ∃ w,
      (gkeydecomp_ring_writer (p, t) src).1.2 = t + w ∧
      (gkeydecomp_ring_writer (p, t) src).1.1.in_buffer = p.in_buffer ∧
      (gkeydecomp_ring_writer (p, t) src).1.1.in_size = p.in_size ∧
      (p.out_buffer = none → (gkeydecomp_ring_writer (p, t) src).1.1.out_buffer = none ∧
        (gkeydecomp_ring_writer (p, t) src).1.1.out_size = p.out_size + w) ∧
      (∀ l, p.out_buffer = some l → ∃ s2, s2.length = w ∧
        (gkeydecomp_ring_writer (p, t) src).1.1.out_buffer = some (l ++ s2) ∧
        p.out_size = (gkeydecomp_ring_writer (p, t) src).1.1.out_size + w) := by
  rcases hob : p.out_buffer with - | l0
  · have hw0 : gkeydecomp_ring_writer (p, t) src =
        (({ p with out_size := p.out_size + src.length }, t + src.length), src.length) := by
      simp only [gkeydecomp_ring_writer, hob]
    rw [hw0]
    exact ⟨src.length, rfl, rfl, rfl, fun h => ⟨hob, rfl⟩,
      fun l hl => Option.noConfusion hl⟩
  · have hw := gkeydecomp_ring_writer_some p t l0 src hob
    rw [hw]
    refine ⟨min p.out_size src.length, rfl, rfl, rfl, ?_, ?_⟩
    · intro hn
      exact Option.noConfusion hn
    · intro l hl
      obtain rfl : l0 = l := Option.some.inj hl
      refine ⟨src.take (min p.out_size src.length), ?_, rfl, ?_⟩
      · rw [List.length_take]
        omega
      · show p.out_size = p.out_size - min p.out_size src.length + min p.out_size src.length
        omega

/-- The ring-copy loop driven by the decompressor's writer conserves the
output cursor and leaves the input untouched. -/
theorem gkeydecomp_copy_loop_conserve (offset n : Nat) :
    ∀ (fuel : Nat) (ring : RingBuffer) (p : GKeyParameters) (t total : Nat),
      ∃ w,
        (RingBuffer_copy_loop (some gkeydecomp_ring_writer) offset n fuel ring (p, t)
            total).2.1.2 = t + w ∧
        (RingBuffer_copy_loop (some gkeydecomp_ring_writer) offset n fuel ring (p, t)
            total).2.1.1.in_buffer = p.in_buffer ∧
        (RingBuffer_copy_loop (some gkeydecomp_ring_writer) offset n fuel ring (p, t)
            total).2.1.1.in_size = p.in_size ∧
        (p.out_buffer = none →
          (RingBuffer_copy_loop (some gkeydecomp_ring_writer) offset n fuel ring (p, t)
              total).2.1.1.out_buffer = none ∧
          (RingBuffer_copy_loop (some gkeydecomp_ring_writer) offset n fuel ring (p, t)
              total).2.1.1.out_size = p.out_size + w) ∧
        (∀ l, p.out_buffer = some l → ∃ s2, s2.length = w ∧
          (RingBuffer_copy_loop (some gkeydecomp_ring_writer) offset n fuel ring (p, t)
              total).2.1.1.out_buffer = some (l ++ s2) ∧
          p.out_size = (RingBuffer_copy_loop (some gkeydecomp_ring_writer) offset n fuel
              ring (p, t) total).2.1.1.out_size + w) := by
  intro fuel
  induction fuel with
  | zero =>
    intro ring p t total
    exact ⟨0, rfl, rfl, rfl, fun h => ⟨h, rfl⟩,
      fun l hl => ⟨[], rfl, by rw [List.append_nil]; exact hl, rfl⟩⟩
  | succ fuel ih =>
    intro ring p t total
    by_cases htot : total < n
    · rcases hcb : gkeydecomp_ring_writer (p, t)
          ((ring.buffer.drop ((ring.write_pos + offset) &&& (ring.size - 1))).take
            (min (ring.size - ((ring.write_pos + offset) &&& (ring.size - 1)))
              (n - total))) with ⟨⟨p1, t1⟩, copied⟩
      obtain ⟨w1, a1, a2, a3, a4, a5⟩ := gkeydecomp_ring_writer_conserve p t
        ((ring.buffer.drop ((ring.write_pos + offset) &&& (ring.size - 1))).take
          (min (ring.size - ((ring.write_pos + offset) &&& (ring.size - 1)))
            (n - total)))
      rw [hcb] at a1 a2 a3 a4 a5
      simp only [] at a1 a2 a3 a4 a5
      rw [RingBuffer_copy_loop_succ gkeydecomp_ring_writer offset n fuel ring (p, t) total
        _ _ _ _ _ rfl rfl rfl hcb htot]
      by_cases hgo : min (ring.size - ((ring.write_pos + offset) &&& (ring.size - 1)))
          (n - total) ≤ copied ∧
          0 < min (ring.size - ((ring.write_pos + offset) &&& (ring.size - 1))) (n - total)
      · rw [if_pos hgo]
        obtain ⟨w2, b1, b2, b3, b4, b5⟩ := ih
          (RingBuffer_write ring
            (((ring.buffer.drop ((ring.write_pos + offset) &&& (ring.size - 1))).take
              (min (ring.size - ((ring.write_pos + offset) &&& (ring.size - 1)))
                (n - total))).take copied))
          p1 t1 (total + copied)
        refine ⟨w1 + w2, by omega, by rw [b2, a2], by rw [b3, a3], ?_, ?_⟩
        · intro hn
          obtain ⟨e1, e2⟩ := a4 hn
          obtain ⟨f1, f2⟩ := b4 e1
          exact ⟨f1, by omega⟩
        · intro l hl
          obtain ⟨s2, e1, e2, e3⟩ := a5 l hl
          obtain ⟨s3, f1, f2, f3⟩ := b5 (l ++ s2) e2
          refine ⟨s2 ++ s3, ?_, ?_, by omega⟩
          · rw [List.length_append]
            omega
          · rw [f2, List.append_assoc]
      · rw [if_neg hgo]
        exact ⟨w1, a1, a2, a3, a4, a5⟩
    · have hunf : RingBuffer_copy_loop (some gkeydecomp_ring_writer) offset n (fuel + 1)
          ring (p, t) total = (ring, (p, t), total) := by
        simp [RingBuffer_copy_loop, htot]
      rw [hunf]
      exact ⟨0, rfl, rfl, rfl, fun h => ⟨h, rfl⟩,
        fun l hl => ⟨[], rfl, by rw [List.append_nil]; exact hl, rfl⟩⟩

/-- `dstep_CopyData` conserves the cursors (no input is consumed). -/
theorem dstep_CopyData_conserve (d : GKeyDecomp) (p : GKeyParameters) :
    ∃ c w,
      (dstep_CopyData d p).decomp.in_total = d.in_total + c ∧
      (dstep_CopyData d p).params.in_buffer = p.in_buffer.drop c ∧
      p.in_size = (dstep_CopyData d p).params.in_size + c ∧
      (dstep_CopyData d p).decomp.out_total = d.out_total + w ∧
      (p.out_buffer = none → (dstep_CopyData d p).params.out_buffer = none ∧
        (dstep_CopyData d p).params.out_size = p.out_size + w) ∧
      (∀ l, p.out_buffer = some l → ∃ s2, s2.length = w ∧
        (dstep_CopyData d p).params.out_buffer = some (l ++ s2) ∧
        p.out_size = (dstep_CopyData d p).params.out_size + w) := by
  obtain ⟨w, a1, a2, a3, a4, a5⟩ := gkeydecomp_copy_loop_conserve d.read_offset d.read_size
    (d.read_size + 1) d.history p d.out_total 0
  have hrc : RingBuffer_copy d.history (some gkeydecomp_ring_writer) (p, d.out_total)
      d.read_offset d.read_size =
      RingBuffer_copy_loop (some gkeydecomp_ring_writer) d.read_offset d.read_size
        (d.read_size + 1) d.history (p, d.out_total) 0 := rfl
  rw [← hrc] at a1 a2 a3 a4 a5
  simp only [dstep_CopyData]
  split
  · exact ⟨0, w, rfl, a2, a3.symm, a1, a4, a5⟩
  · exact ⟨0, w, rfl, a2, a3.symm, a1, a4, a5⟩

/-- `dstep_PutByte` conserves the cursors (no input is consumed). -/
theorem dstep_PutByte_conserve (d : GKeyDecomp) (p : GKeyParameters) :
    ∃ c w,
      (dstep_PutByte d p).decomp.in_total = d.in_total + c ∧
      (dstep_PutByte d p).params.in_buffer = p.in_buffer.drop c ∧
      p.in_size = (dstep_PutByte d p).params.in_size + c ∧
      (dstep_PutByte d p).decomp.out_total = d.out_total + w ∧
      (p.out_buffer = none → (dstep_PutByte d p).params.out_buffer = none ∧
        (dstep_PutByte d p).params.out_size = p.out_size + w) ∧
      (∀ l, p.out_buffer = some l → ∃ s2, s2.length = w ∧
        (dstep_PutByte d p).params.out_buffer = some (l ++ s2) ∧
        p.out_size = (dstep_PutByte d p).params.out_size + w) := by
  obtain ⟨w, a1, a2, a3, a4, a5⟩ := gkeydecomp_ring_writer_conserve p d.out_total [d.literal]
  simp only [dstep_PutByte]
  split
  · exact ⟨0, w, rfl, a2, a3.symm, a1, a4, a5⟩
  · exact ⟨0, w, rfl, a2, a3.symm, a1, a4, a5⟩

/-- `dstep_GetByte` conserves the cursors. -/
theorem dstep_GetByte_conserve (d : GKeyDecomp) (p : GKeyParameters) :
    ∃ c w,
      (dstep_GetByte d p).decomp.in_total = d.in_total + c ∧
      (dstep_GetByte d p).params.in_buffer = p.in_buffer.drop c ∧
      p.in_size = (dstep_GetByte d p).params.in_size + c ∧
      (dstep_GetByte d p).decomp.out_total = d.out_total + w ∧
      (p.out_buffer = none → (dstep_GetByte d p).params.out_buffer = none ∧
        (dstep_GetByte d p).params.out_size = p.out_size + w) ∧
      (∀ l, p.out_buffer = some l → ∃ s2, s2.length = w ∧
        (dstep_GetByte d p).params.out_buffer = some (l ++ s2) ∧
        p.out_size = (dstep_GetByte d p).params.out_size + w) := by
  have hrb6 := read_bits_conserve d p 8
  rcases hrb : read_bits d p 8 with ⟨d1, p1, - | bits⟩
  · rw [hrb] at hrb6
    simp only [] at hrb6
    simp only [dstep_GetByte, hrb]
    split
    · exact hrb6
    · exact hrb6
  · rw [hrb] at hrb6
    simp only [] at hrb6
    simp only [dstep_GetByte, hrb]
    exact io_conserve_comp hrb6
      (dstep_PutByte_conserve { d1 with literal := bits, state := .PutByte } p1)

/-- `dstep_GetSize` conserves the cursors. -/
theorem dstep_GetSize_conserve (d : GKeyDecomp) (p : GKeyParameters) :
    ∃ c w,
      (dstep_GetSize d p).decomp.in_total = d.in_total + c ∧
      (dstep_GetSize d p).params.in_buffer = p.in_buffer.drop c ∧
      p.in_size = (dstep_GetSize d p).params.in_size + c ∧
      (dstep_GetSize d p).decomp.out_total = d.out_total + w ∧
      (p.out_buffer = none → (dstep_GetSize d p).params.out_buffer = none ∧
        (dstep_GetSize d p).params.out_size = p.out_size + w) ∧
      (∀ l, p.out_buffer = some l → ∃ s2, s2.length = w ∧
        (dstep_GetSize d p).params.out_buffer = some (l ++ s2) ∧
        p.out_size = (dstep_GetSize d p).params.out_size + w) := by
  have hrb6 := read_bits_conserve d p (GKey_get_read_size_bits d.history_log_2 d.read_offset)
  rcases hrb : read_bits d p (GKey_get_read_size_bits d.history_log_2 d.read_offset) with
    ⟨d1, p1, - | bits⟩
  · rw [hrb] at hrb6
    simp only [] at hrb6
    simp only [dstep_GetSize, hrb]
    exact hrb6
  · rw [hrb] at hrb6
    simp only [] at hrb6
    simp only [dstep_GetSize, hrb]
    split
    · exact hrb6
    · exact io_conserve_comp hrb6
        (dstep_CopyData_conserve { d1 with read_size := bits, state := .CopyData } p1)

/-- `dstep_GetOffset` conserves the cursors. -/
theorem dstep_GetOffset_conserve (d : GKeyDecomp) (p : GKeyParameters) :
    ∃ c w,
      (dstep_GetOffset d p).decomp.in_total = d.in_total + c ∧
      (dstep_GetOffset d p).params.in_buffer = p.in_buffer.drop c ∧
      p.in_size = (dstep_GetOffset d p).params.in_size + c ∧
      (dstep_GetOffset d p).decomp.out_total = d.out_total + w ∧
      (p.out_buffer = none → (dstep_GetOffset d p).params.out_buffer = none ∧
        (dstep_GetOffset d p).params.out_size = p.out_size + w) ∧
      (∀ l, p.out_buffer = some l → ∃ s2, s2.length = w ∧
        (dstep_GetOffset d p).params.out_buffer = some (l ++ s2) ∧
        p.out_size = (dstep_GetOffset d p).params.out_size + w) := by
  have hrb6 := read_bits_conserve d p d.history_log_2
  rcases hrb : read_bits d p d.history_log_2 with ⟨d1, p1, - | bits⟩
  · rw [hrb] at hrb6
    simp only [] at hrb6
    simp only [dstep_GetOffset, hrb]
    exact hrb6
  · rw [hrb] at hrb6
    simp only [] at hrb6
    simp only [dstep_GetOffset, hrb]
    exact io_conserve_comp hrb6
      (dstep_GetSize_conserve { d1 with read_offset := bits, state := .GetSize } p1)

/-- `dstep_GetType` conserves the cursors. -/
theorem dstep_GetType_conserve (d : GKeyDecomp) (p : GKeyParameters) :
    ∃ c w,
      (dstep_GetType d p).decomp.in_total = d.in_total + c ∧
      (dstep_GetType d p).params.in_buffer = p.in_buffer.drop c ∧
      p.in_size = (dstep_GetType d p).params.in_size + c ∧
      (dstep_GetType d p).decomp.out_total = d.out_total + w ∧
      (p.out_buffer = none → (dstep_GetType d p).params.out_buffer = none ∧
        (dstep_GetType d p).params.out_size = p.out_size + w) ∧
      (∀ l, p.out_buffer = some l → ∃ s2, s2.length = w ∧
        (dstep_GetType d p).params.out_buffer = some (l ++ s2) ∧
        p.out_size = (dstep_GetType d p).params.out_size + w) := by
  have hrb6 := read_bits_conserve d p 1
  rcases hrb : read_bits d p 1 with ⟨d1, p1, - | bits⟩
  · rw [hrb] at hrb6
    simp only [] at hrb6
    simp only [dstep_GetType, hrb]
    exact hrb6
  · rw [hrb] at hrb6
    simp only [] at hrb6
    simp only [dstep_GetType, hrb]
    split
    · exact io_conserve_comp hrb6
        (dstep_GetOffset_conserve { d1 with state := .GetOffset } p1)
    · exact hrb6

/-- `dstep_Progress` conserves the cursors. -/
theorem dstep_Progress_conserve (d : GKeyDecomp) (p : GKeyParameters) :
    ∃ c w,
      (dstep_Progress d p).decomp.in_total = d.in_total + c ∧
      (dstep_Progress d p).params.in_buffer = p.in_buffer.drop c ∧
      p.in_size = (dstep_Progress d p).params.in_size + c ∧
      (dstep_Progress d p).decomp.out_total = d.out_total + w ∧
      (p.out_buffer = none → (dstep_Progress d p).params.out_buffer = none ∧
        (dstep_Progress d p).params.out_size = p.out_size + w) ∧
      (∀ l, p.out_buffer = some l → ∃ s2, s2.length = w ∧
        (dstep_Progress d p).params.out_buffer = some (l ++ s2) ∧
        p.out_size = (dstep_Progress d p).params.out_size + w) := by
  rcases hcb : p.prog_cb with - | cb
  · simp only [dstep_Progress, hcb]
    exact dstep_GetType_conserve { d with state := .GetType } p
  · simp only [dstep_Progress, hcb]
    split
    · exact dstep_GetType_conserve { d with state := .GetType } p
    · exact io_conserve_refl d.in_total p.in_buffer p.in_size d.out_total p.out_buffer
        p.out_size

/-- One decompressor `switch` execution conserves the cursors. -/
theorem gkeydecomp_step_conserve (d : GKeyDecomp) (p : GKeyParameters) :
    ∃ c w,
      (gkeydecomp_step d p).decomp.in_total = d.in_total + c ∧
      (gkeydecomp_step d p).params.in_buffer = p.in_buffer.drop c ∧
      p.in_size = (gkeydecomp_step d p).params.in_size + c ∧
      (gkeydecomp_step d p).decomp.out_total = d.out_total + w ∧
      (p.out_buffer = none → (gkeydecomp_step d p).params.out_buffer = none ∧
        (gkeydecomp_step d p).params.out_size = p.out_size + w) ∧
      (∀ l, p.out_buffer = some l → ∃ s2, s2.length = w ∧
        (gkeydecomp_step d p).params.out_buffer = some (l ++ s2) ∧
        p.out_size = (gkeydecomp_step d p).params.out_size + w) := by
  rcases hst : d.state with - | - | - | - | - | - | -
  all_goals simp only [gkeydecomp_step, hst]
  · exact dstep_Progress_conserve d p
  · exact dstep_GetType_conserve d p
  · exact dstep_GetOffset_conserve d p
  · exact dstep_GetSize_conserve d p
  · exact dstep_CopyData_conserve d p
  · exact dstep_GetByte_conserve d p
  · exact dstep_PutByte_conserve d p

/-- The decompressor driver conserves the cursors: the input advance,
the input-size decrement and the `in_total` increase agree, and likewise
for the output window when one is present. -/
theorem gkeydecomp_loop_conserve :
    ∀ (fuel : Nat) (d : GKeyDecomp) (p : GKeyParameters),
      ∃ c w,
      (gkeydecomp_loop fuel d p).1.in_total = d.in_total + c ∧
      (gkeydecomp_loop fuel d p).2.1.in_buffer = p.in_buffer.drop c ∧
      p.in_size = (gkeydecomp_loop fuel d p).2.1.in_size + c ∧
      (gkeydecomp_loop fuel d p).1.out_total = d.out_total + w ∧
      (p.out_buffer = none → (gkeydecomp_loop fuel d p).2.1.out_buffer = none ∧
        (gkeydecomp_loop fuel d p).2.1.out_size = p.out_size + w) ∧
      (∀ l, p.out_buffer = some l → ∃ s2, s2.length = w ∧
        (gkeydecomp_loop fuel d p).2.1.out_buffer = some (l ++ s2) ∧
        p.out_size = (gkeydecomp_loop fuel d p).2.1.out_size + w) := by
  intro fuel
  induction fuel with
  | zero =>
    intro d p
    exact io_conserve_refl d.in_total p.in_buffer p.in_size d.out_total p.out_buffer
      p.out_size
  | succ fuel ih =>
    intro d p
    rw [gkeydecomp_loop_succ]
    split
    · exact io_conserve_comp (gkeydecomp_step_conserve d p)
        (ih (gkeydecomp_step d p).decomp (gkeydecomp_step d p).params)
    · exact gkeydecomp_step_conserve d p

/-- The byte-draining loop conserves the output cursor: emitted bytes
land at the end of the window (or are merely counted in sizing mode),
the room and the running total move in lockstep. -/
theorem write_bits_drain_loop_conserve :
    ∀ (fuel : Nat) (ob : Option (List Nat)) (os ot acc nb : Nat),
      ∃ w,
        (write_bits_drain_loop fuel ob os ot acc nb).2.2.1 = ot + w ∧
        (ob = none → (write_bits_drain_loop fuel ob os ot acc nb).1 = none ∧
          (write_bits_drain_loop fuel ob os ot acc nb).2.1 = os + w) ∧
        (∀ l, ob = some l → ∃ s2, s2.length = w ∧
          (write_bits_drain_loop fuel ob os ot acc nb).1 = some (l ++ s2) ∧
          os = (write_bits_drain_loop fuel ob os ot acc nb).2.1 + w) := by
  intro fuel
  induction fuel with
  | zero =>
    intro ob os ot acc nb
    exact ⟨0, rfl, fun h => ⟨h, rfl⟩,
      fun l hl => ⟨[], rfl, by rw [List.append_nil]; exact hl, rfl⟩⟩
  | succ fuel ih =>
    intro ob os ot acc nb
    by_cases h8 : 8 ≤ nb
    · by_cases hguard : ob.isSome ∧ os = 0
      · have hunf : write_bits_drain_loop (fuel + 1) ob os ot acc nb = (ob, os, ot, acc, nb, false) := by
          rw [write_bits_drain_loop, if_pos h8, if_pos hguard]
        rw [hunf]
        exact ⟨0, rfl, fun h => ⟨h, rfl⟩,
          fun l hl => ⟨[], rfl, by rw [List.append_nil]; exact hl, rfl⟩⟩
      · rcases hob : ob with - | out
        · have hunf : write_bits_drain_loop (fuel + 1) none os ot acc nb =
              write_bits_drain_loop fuel none (os + 1) (ot + 1) (acc >>> 8) (nb - 8) := by
            rw [write_bits_drain_loop, if_pos h8, if_neg (by rw [hob] at hguard; exact hguard)]
          rw [hunf]
          obtain ⟨w, b1, b2, b3⟩ := ih none (os + 1) (ot + 1) (acc >>> 8) (nb - 8)
          obtain ⟨e1, e2⟩ := b2 rfl
          exact ⟨w + 1, by omega, fun h => ⟨e1, by omega⟩, fun l hl => Option.noConfusion hl⟩
        · have hosz : os ≠ 0 := by
            intro h0
            exact hguard ⟨by rw [hob]; rfl, h0⟩
          have hunf : write_bits_drain_loop (fuel + 1) (some out) os ot acc nb =
              write_bits_drain_loop fuel (some (out ++ [acc % 256])) (os - 1) (ot + 1)
                (acc >>> 8) (nb - 8) := by
            rw [write_bits_drain_loop, if_pos h8, if_neg (by rw [hob] at hguard; exact hguard)]
          rw [hunf]
          obtain ⟨w, b1, b2, b3⟩ := ih (some (out ++ [acc % 256])) (os - 1) (ot + 1)
            (acc >>> 8) (nb - 8)
          obtain ⟨s2, f1, f2, f3⟩ := b3 (out ++ [acc % 256]) rfl
          refine ⟨w + 1, by omega, fun h => Option.noConfusion h, ?_⟩
          intro l hl
          obtain rfl : out = l := Option.some.inj hl
          refine ⟨acc % 256 :: s2, by simp [f1], ?_, by omega⟩
          rw [f2, List.append_assoc]
          rfl
    · have hunf : write_bits_drain_loop (fuel + 1) ob os ot acc nb = (ob, os, ot, acc, nb, true) := by
        rw [write_bits_drain_loop, if_neg h8]
      rw [hunf]
      exact ⟨0, rfl, fun h => ⟨h, rfl⟩,
        fun l hl => ⟨[], rfl, by rw [List.append_nil]; exact hl, rfl⟩⟩

/-- `write_bits` conserves the output cursor and never touches the
input cursor or `in_total`. -/
theorem write_bits_conserve (c : GKeyComp) (p : GKeyParameters) (nbits : Option Nat)
    (bits : Nat) :
    ∃ w,
      (write_bits c p nbits bits).1.out_total = c.out_total + w ∧
      (write_bits c p nbits bits).1.in_total = c.in_total ∧
      (write_bits c p nbits bits).2.1.in_buffer = p.in_buffer ∧
      (write_bits c p nbits bits).2.1.in_size = p.in_size ∧
      (p.out_buffer = none → (write_bits c p nbits bits).2.1.out_buffer = none ∧
        (write_bits c p nbits bits).2.1.out_size = p.out_size + w) ∧
      (∀ l, p.out_buffer = some l → ∃ s2, s2.length = w ∧
        (write_bits c p nbits bits).2.1.out_buffer = some (l ++ s2) ∧
        p.out_size = (write_bits c p nbits bits).2.1.out_size + w) := by
  rcases nbits with - | nb
  · obtain ⟨w, h1, h2, h3⟩ := write_bits_drain_loop_conserve
      (if c.acc_nbits % 8 ≠ 0 then c.acc_nbits + (8 - c.acc_nbits % 8) else c.acc_nbits)
      p.out_buffer p.out_size c.out_total c.acc
      (if c.acc_nbits % 8 ≠ 0 then c.acc_nbits + (8 - c.acc_nbits % 8) else c.acc_nbits)
    exact ⟨w, h1, rfl, rfl, rfl, h2, h3⟩
  · obtain ⟨w, h1, h2, h3⟩ := write_bits_drain_loop_conserve c.acc_nbits
      p.out_buffer p.out_size c.out_total c.acc c.acc_nbits
    exact ⟨w, h1, rfl, rfl, rfl, h2, h3⟩

/-- The compressor's literal-run writer conserves the cursors. -/
theorem gkeycomp_ring_writer_loop_conserve :
    ∀ (src : List Nat) (c : GKeyComp) (p : GKeyParameters) (nout : Nat),
      ∃ w,
        (gkeycomp_ring_writer_loop c p src nout).1.1.out_total = c.out_total + w ∧
        (gkeycomp_ring_writer_loop c p src nout).1.1.in_total = c.in_total ∧
        (gkeycomp_ring_writer_loop c p src nout).1.2.in_buffer = p.in_buffer ∧
        (gkeycomp_ring_writer_loop c p src nout).1.2.in_size = p.in_size ∧
        (p.out_buffer = none → (gkeycomp_ring_writer_loop c p src nout).1.2.out_buffer = none ∧
          (gkeycomp_ring_writer_loop c p src nout).1.2.out_size = p.out_size + w) ∧
        (∀ l, p.out_buffer = some l → ∃ s2, s2.length = w ∧
          (gkeycomp_ring_writer_loop c p src nout).1.2.out_buffer = some (l ++ s2) ∧
          p.out_size = (gkeycomp_ring_writer_loop c p src nout).1.2.out_size + w) := by
  intro src
  induction src with
  | nil =>
    intro c p nout
    exact ⟨0, rfl, rfl, rfl, rfl, fun h => ⟨h, rfl⟩,
      fun l hl => ⟨[], rfl, by rw [List.append_nil]; exact hl, rfl⟩⟩
  | cons b rest ih =>
    intro c p nout
    have hwb6 := write_bits_conserve c p (some 9) (b <<< 1)
    rcases hwb : write_bits c p (some 9) (b <<< 1) with ⟨c1, p1, ok⟩
    rw [hwb] at hwb6
    simp only [] at hwb6
    obtain ⟨w1, a1, a2, a3, a4, a5, a6⟩ := hwb6
    cases ok with
    | false =>
      have hunf : gkeycomp_ring_writer_loop c p (b :: rest) nout = ((c1, p1), nout) := by
        rw [gkeycomp_ring_writer_loop, hwb]
      rw [hunf]
      exact ⟨w1, a1, a2, a3, a4, a5, a6⟩
    | true =>
      have hunf : gkeycomp_ring_writer_loop c p (b :: rest) nout =
          gkeycomp_ring_writer_loop c1 p1 rest (nout + 1) := by
        rw [gkeycomp_ring_writer_loop, hwb]
      rw [hunf]
      obtain ⟨w2, b1, b2, b3, b4, b5, b6⟩ := ih c1 p1 (nout + 1)
      refine ⟨w1 + w2, by omega, by rw [b2, a2], by rw [b3, a3], by rw [b4, a4], ?_, ?_⟩
      · intro hn
        obtain ⟨e1, e2⟩ := a5 hn
        obtain ⟨f1, f2⟩ := b5 e1
        exact ⟨f1, by omega⟩
      · intro l hl
        obtain ⟨s2, e1, e2, e3⟩ := a6 l hl
        obtain ⟨s3, f1, f2, f3⟩ := b6 (l ++ s2) e2
        refine ⟨s2 ++ s3, ?_, ?_, by omega⟩
        · rw [List.length_append]
          omega
        · rw [f2, List.append_assoc]

/-- The ring-copy loop driven by the compressor's writer conserves the
cursors. -/
theorem gkeycomp_copy_loop_conserve (offset n : Nat) :
    ∀ (fuel : Nat) (ring : RingBuffer) (c : GKeyComp) (p : GKeyParameters) (total : Nat),
      ∃ w,
        (RingBuffer_copy_loop (some gkeycomp_ring_writer) offset n fuel ring (c, p)
            total).2.1.1.out_total = c.out_total + w ∧
        (RingBuffer_copy_loop (some gkeycomp_ring_writer) offset n fuel ring (c, p)
            total).2.1.1.in_total = c.in_total ∧
        (RingBuffer_copy_loop (some gkeycomp_ring_writer) offset n fuel ring (c, p)
            total).2.1.2.in_buffer = p.in_buffer ∧
        (RingBuffer_copy_loop (some gkeycomp_ring_writer) offset n fuel ring (c, p)
            total).2.1.2.in_size = p.in_size ∧
        (p.out_buffer = none →
          (RingBuffer_copy_loop (some gkeycomp_ring_writer) offset n fuel ring (c, p)
              total).2.1.2.out_buffer = none ∧
          (RingBuffer_copy_loop (some gkeycomp_ring_writer) offset n fuel ring (c, p)
              total).2.1.2.out_size = p.out_size + w) ∧
        (∀ l, p.out_buffer = some l → ∃ s2, s2.length = w ∧
          (RingBuffer_copy_loop (some gkeycomp_ring_writer) offset n fuel ring (c, p)
              total).2.1.2.out_buffer = some (l ++ s2) ∧
          p.out_size = (RingBuffer_copy_loop (some gkeycomp_ring_writer) offset n fuel
              ring (c, p) total).2.1.2.out_size + w) := by
  intro fuel
  induction fuel with
  | zero =>
    intro ring c p total
    exact ⟨0, rfl, rfl, rfl, rfl, fun h => ⟨h, rfl⟩,
      fun l hl => ⟨[], rfl, by rw [List.append_nil]; exact hl, rfl⟩⟩
  | succ fuel ih =>
    intro ring c p total
    by_cases htot : total < n
    · rcases hcb : gkeycomp_ring_writer (c, p)
          ((ring.buffer.drop ((ring.write_pos + offset) &&& (ring.size - 1))).take
            (min (ring.size - ((ring.write_pos + offset) &&& (ring.size - 1)))
              (n - total))) with ⟨⟨c1, p1⟩, copied⟩
      have hcw := gkeycomp_ring_writer_loop_conserve
        ((ring.buffer.drop ((ring.write_pos + offset) &&& (ring.size - 1))).take
          (min (ring.size - ((ring.write_pos + offset) &&& (ring.size - 1)))
            (n - total))) c p 0
      have hcb' : gkeycomp_ring_writer_loop c p
          ((ring.buffer.drop ((ring.write_pos + offset) &&& (ring.size - 1))).take
            (min (ring.size - ((ring.write_pos + offset) &&& (ring.size - 1)))
              (n - total))) 0 = ((c1, p1), copied) := hcb
      rw [hcb'] at hcw
      simp only [] at hcw
      obtain ⟨w1, a1, a2, a3, a4, a5, a6⟩ := hcw
      rw [RingBuffer_copy_loop_succ gkeycomp_ring_writer offset n fuel ring (c, p) total
        _ _ _ _ _ rfl rfl rfl hcb htot]
      by_cases hgo : min (ring.size - ((ring.write_pos + offset) &&& (ring.size - 1)))
          (n - total) ≤ copied ∧
          0 < min (ring.size - ((ring.write_pos + offset) &&& (ring.size - 1))) (n - total)
      · rw [if_pos hgo]
        obtain ⟨w2, b1, b2, b3, b4, b5, b6⟩ := ih
          (RingBuffer_write ring
            (((ring.buffer.drop ((ring.write_pos + offset) &&& (ring.size - 1))).take
              (min (ring.size - ((ring.write_pos + offset) &&& (ring.size - 1)))
                (n - total))).take copied))
          c1 p1 (total + copied)
        refine ⟨w1 + w2, by omega, by rw [b2, a2], by rw [b3, a3], by rw [b4, a4], ?_, ?_⟩
        · intro hn
          obtain ⟨e1, e2⟩ := a5 hn
          obtain ⟨f1, f2⟩ := b5 e1
          exact ⟨f1, by omega⟩
        · intro l hl
          obtain ⟨s2, e1, e2, e3⟩ := a6 l hl
          obtain ⟨s3, f1, f2, f3⟩ := b6 (l ++ s2) e2
          refine ⟨s2 ++ s3, ?_, ?_, by omega⟩
          · rw [List.length_append]
            omega
          · rw [f2, List.append_assoc]
      · rw [if_neg hgo]
        exact ⟨w1, a1, a2, a3, a4, a5, a6⟩
    · have hunf : RingBuffer_copy_loop (some gkeycomp_ring_writer) offset n (fuel + 1)
          ring (c, p) total = (ring, (c, p), total) := by
        simp [RingBuffer_copy_loop, htot]
      rw [hunf]
      exact ⟨0, rfl, rfl, rfl, rfl, fun h => ⟨h, rfl⟩,
        fun l hl => ⟨[], rfl, by rw [List.append_nil]; exact hl, rfl⟩⟩

/-- The match-extension loop never counts more input than is available. -/
theorem fs_extend_loop_consumed (history : RingBuffer) (in_buffer : List Nat)
    (in_size read_offset max_read_size : Nat) :
    ∀ (fuel read_size consumed : Nat), consumed ≤ in_size →
      (fs_extend_loop history in_buffer in_size read_offset max_read_size fuel read_size
        consumed).2.1 ≤ in_size := by
  intro fuel
  induction fuel with
  | zero =>
    intro rs cons h
    exact h
  | succ fuel ih =>
    intro rs cons h
    simp only [fs_extend_loop]
    split
    · split
      · exact h
      · split
        · exact h
        · exact ih (rs + 1) (cons + 1) (by omega)
    · exact h

/-- One outer round of the search never counts more input than is
available. -/
theorem fs_round_consumed (history : RingBuffer) (in_buffer : List Nat) (in_size : Nat)
    (v : FindSeqVars) (h : v.consumed ≤ in_size) :
    (fs_round history in_buffer in_size v).1.consumed ≤ in_size := by
  have hx := fs_extend_loop_consumed history in_buffer in_size v.read_offset
    v.max_read_size (v.max_read_size - v.read_size) v.read_size v.consumed h
  rcases hfx : fs_extend history in_buffer in_size v.read_offset v.max_read_size
      v.read_size v.consumed with ⟨rs1, cons1, stalled⟩
  have hfx' : fs_extend_loop history in_buffer in_size v.read_offset v.max_read_size
      (v.max_read_size - v.read_size) v.read_size v.consumed = (rs1, cons1, stalled) := hfx
  rw [hfx'] at hx
  simp only [] at hx
  simp only [fs_round, hfx]
  split
  · exact hx
  · split
    · exact hx
    · exact hx

/-- The whole search loop never counts more input than is available. -/
theorem fs_loop_consumed (history : RingBuffer) (hl2 : Nat) (in_buffer : List Nat)
    (in_size : Nat) :
    ∀ (fuel : Nat) (v : FindSeqVars), v.consumed ≤ in_size →
      (fs_loop history hl2 in_buffer in_size fuel v).consumed ≤ in_size := by
  intro fuel
  induction fuel with
  | zero =>
    intro v h
    exact h
  | succ fuel ih =>
    intro v h
    have haux : ∀ w : FindSeqVars, w.consumed ≤ in_size →
        (match fs_round history in_buffer in_size w with
          | (v3, cont) => if cont = true then fs_loop history hl2 in_buffer in_size fuel v3
            else v3).consumed ≤ in_size := by
      intro w hw
      rcases hfr : fs_round history in_buffer in_size w with ⟨v3, cont⟩
      have hv3 := fs_round_consumed history in_buffer in_size w hw
      rw [hfr] at hv3
      simp only [] at hv3
      cases cont with
      | false => exact hv3
      | true => exact ih v3 hv3
    have haux2 : ∀ nbyte : Nat,
        (if v.best_read_size = 0 then v.consumed + 1 else v.consumed) ≤ in_size →
        (match RingBuffer_find_char history v.read_offset
            ((if 0 < 2 ^ hl2 - v.read_offset then 2 ^ hl2 - v.read_offset - 1
              else 2 ^ hl2 - v.read_offset) - v.best_read_size) nbyte with
          | none => ({ v with max_read_size := 0 } : FindSeqVars)
          | some found =>
            if (1 : Nat) < v.best_read_size then
              if RingBuffer_compare history (found + 1) (v.best_read_offset + 1)
                  (v.best_read_size - 1) ≠ 0 then
                fs_loop history hl2 in_buffer in_size fuel
                  { v with
                      read_offset := found + 1
                      read_size := 0
                      max_read_size := (if 0 < 2 ^ hl2 - v.read_offset then
                          2 ^ hl2 - v.read_offset - 1 else 2 ^ hl2 - v.read_offset) -
                          (found - v.read_offset)
                      consumed := if v.best_read_size = 0 then v.consumed + 1 else v.consumed }
              else
                match fs_round history in_buffer in_size
                    { v with
                        read_offset := found
                        read_size := v.best_read_size
                        max_read_size := (if 0 < 2 ^ hl2 - v.read_offset then
                            2 ^ hl2 - v.read_offset - 1 else 2 ^ hl2 - v.read_offset) -
                            (found - v.read_offset)
                        consumed := if v.best_read_size = 0 then v.consumed + 1 else v.consumed } with
                | (v3, cont) => if cont = true then
                    fs_loop history hl2 in_buffer in_size fuel v3 else v3
            else
              match fs_round history in_buffer in_size
                  { v with
                      read_offset := found
                      read_size := 1
                      max_read_size := (if 0 < 2 ^ hl2 - v.read_offset then
                          2 ^ hl2 - v.read_offset - 1 else 2 ^ hl2 - v.read_offset) -
                          (found - v.read_offset)
                      consumed := if v.best_read_size = 0 then v.consumed + 1 else v.consumed } with
              | (v3, cont) => if cont = true then
                  fs_loop history hl2 in_buffer in_size fuel v3 else v3).consumed ≤ in_size := by
      intro nbyte hcons1
      rcases hfc : RingBuffer_find_char history v.read_offset
          ((if 0 < 2 ^ hl2 - v.read_offset then 2 ^ hl2 - v.read_offset - 1
            else 2 ^ hl2 - v.read_offset) - v.best_read_size) nbyte with - | found
      · exact h
      · show (
          if (1 : Nat) < v.best_read_size then
            if RingBuffer_compare history (found + 1) (v.best_read_offset + 1)
                (v.best_read_size - 1) ≠ 0 then
              fs_loop history hl2 in_buffer in_size fuel
                { v with
                    read_offset := found + 1
                    read_size := 0
                    max_read_size := (if 0 < 2 ^ hl2 - v.read_offset then
                        2 ^ hl2 - v.read_offset - 1 else 2 ^ hl2 - v.read_offset) -
                        (found - v.read_offset)
                    consumed := if v.best_read_size = 0 then v.consumed + 1 else v.consumed }
            else
              match fs_round history in_buffer in_size
                  { v with
                      read_offset := found
                      read_size := v.best_read_size
                      max_read_size := (if 0 < 2 ^ hl2 - v.read_offset then
                          2 ^ hl2 - v.read_offset - 1 else 2 ^ hl2 - v.read_offset) -
                          (found - v.read_offset)
                      consumed := if v.best_read_size = 0 then v.consumed + 1 else v.consumed } with
              | (v3, cont) => if cont = true then
                  fs_loop history hl2 in_buffer in_size fuel v3 else v3
          else
            match fs_round history in_buffer in_size
                { v with
                    read_offset := found
                    read_size := 1
                    max_read_size := (if 0 < 2 ^ hl2 - v.read_offset then
                        2 ^ hl2 - v.read_offset - 1 else 2 ^ hl2 - v.read_offset) -
                        (found - v.read_offset)
                    consumed := if v.best_read_size = 0 then v.consumed + 1 else v.consumed } with
            | (v3, cont) => if cont = true then
                fs_loop history hl2 in_buffer in_size fuel v3 else v3 : FindSeqVars).consumed ≤ in_size
        by_cases h1 : (1 : Nat) < v.best_read_size
        · rw [if_pos h1]
          by_cases h2 : RingBuffer_compare history (found + 1) (v.best_read_offset + 1)
              (v.best_read_size - 1) ≠ 0
          · rw [if_pos h2]
            exact ih _ hcons1
          · rw [if_neg h2]
            exact haux _ hcons1
        · rw [if_neg h1]
          exact haux _ hcons1
    rw [fs_loop]
    by_cases hrs : v.read_size = 0
    · rw [if_pos hrs]
      by_cases hm : (if 0 < 2 ^ hl2 - v.read_offset then 2 ^ hl2 - v.read_offset - 1
          else 2 ^ hl2 - v.read_offset) ≤ v.best_read_size
      · rw [if_pos hm]
        exact h
      · rw [if_neg hm]
        by_cases hb0 : v.best_read_size = 0
        · by_cases hie : in_size ≤ v.consumed
          · have hnb : (if v.best_read_size = 0 then
                (if in_size ≤ v.consumed then none
                  else some (in_buffer.getD v.consumed 0))
                else some (RingBuffer_read_char history v.best_read_offset)) =
                (none : Option Nat) := by
              rw [if_pos hb0, if_pos hie]
            rw [hnb]
            exact h
          · have hnb : (if v.best_read_size = 0 then
                (if in_size ≤ v.consumed then none
                  else some (in_buffer.getD v.consumed 0))
                else some (RingBuffer_read_char history v.best_read_offset)) =
                some (in_buffer.getD v.consumed 0) := by
              rw [if_pos hb0, if_neg hie]
            rw [hnb]
            exact haux2 (in_buffer.getD v.consumed 0) (by rw [if_pos hb0]; omega)
        · have hnb : (if v.best_read_size = 0 then
              (if in_size ≤ v.consumed then none
                else some (in_buffer.getD v.consumed 0))
              else some (RingBuffer_read_char history v.best_read_offset)) =
              some (RingBuffer_read_char history v.best_read_offset) := by
            rw [if_neg hb0]
          rw [hnb]
          exact haux2 (RingBuffer_read_char history v.best_read_offset)
            (by rw [if_neg hb0]; exact h)
    · rw [if_neg hrs]
      exact haux v h

/-- `find_sequence` conserves the input cursor (it consumes exactly the
matched bytes) and never touches the output cursor. -/
theorem find_sequence_conserve (c : GKeyComp) (p : GKeyParameters) :
    ∃ cc,
      (find_sequence c p).1.in_total = c.in_total + cc ∧
      (find_sequence c p).2.1.in_buffer = p.in_buffer.drop cc ∧
      p.in_size = (find_sequence c p).2.1.in_size + cc ∧
      (find_sequence c p).1.out_total = c.out_total ∧
      (find_sequence c p).2.1.out_buffer = p.out_buffer ∧
      (find_sequence c p).2.1.out_size = p.out_size := by
  have hv := fs_loop_consumed c.history c.history_log_2 p.in_buffer p.in_size
    (2 ^ c.history_log_2 + 2)
    { read_offset := c.read_offset, read_size := c.read_size,
      max_read_size := c.max_read_size, best_read_offset := c.best_read_offset,
      best_read_size := c.best_read_size, consumed := 0 }
    (Nat.zero_le _)
  refine ⟨(fs_loop c.history c.history_log_2 p.in_buffer p.in_size
      (2 ^ c.history_log_2 + 2)
      { read_offset := c.read_offset, read_size := c.read_size,
        max_read_size := c.max_read_size, best_read_offset := c.best_read_offset,
        best_read_size := c.best_read_size, consumed := 0 }).consumed, ?_⟩
  simp only [find_sequence]
  split
  · exact ⟨rfl, rfl, (Nat.sub_add_cancel hv).symm, rfl, rfl, rfl⟩
  · exact ⟨rfl, rfl, (Nat.sub_add_cancel hv).symm, rfl, rfl, rfl⟩

/-! ## Theorems -/

/-- C5: for every history size `k` and copy offset `r`,
`GKey_get_read_size_bits k r` is `k - 1` when `k > 0` and
`r ≥ 1 <<< (k - 1)` (the comparison is `≥`, not `>`), and `k` otherwise;
in particular with `k = 9` an offset of exactly 256 already gets only 8
size bits. -/
theorem read_size_bits_characterisation :
    (∀ k r : Nat, GKey_get_read_size_bits k r =
      if 0 < k ∧ 2 ^ (k - 1) ≤ r then k - 1 else k) ∧
    GKey_get_read_size_bits 9 256 = 8 := by
  constructor
  · intro k r
    rfl
  · decide

/-- C2, counterexample: a decompressor that needs a token-type bit
(state `GetType`) on exhausted input with a zero accumulator returns
`OK`, not `Finished` as the claim states. -/
theorem decomp_eos_status_counterexample :
    (gkeydecomp_decompress 2
      { gkeydecomp_make 0 with state := .GetType }
      { in_buffer := [], in_size := 0, out_buffer := some [], out_size := 4,
        prog_cb := none }).2.2 = GKeyStatus.OK ∧
    GKeyStatus.OK ≠ GKeyStatus.Finished := by
  constructor
  · rfl
  · decide

/-- C2, amended: when `gkeydecomp_decompress` needs a token-type bit
(state `GetType`) or a literal byte (state `GetByte`) and the input is
exhausted, it returns `OK` (not `Finished`) if the bit accumulator is
exactly zero, and `TruncatedInput` if the accumulator is non-zero (which
can only arise in `GetByte`: in `GetType` the accumulator is empty, hence
zero, whenever no bit is available). -/
theorem decomp_eos_status_amended (d : GKeyDecomp) (p : GKeyParameters) (fuel : Nat)
    (hf : 1 ≤ fuel) (hin : p.in_size = 0) (hinv : d.acc < 2 ^ d.acc_nbits) :
    (d.state = .GetType → d.acc_nbits = 0 →
      d.acc = 0 ∧ (gkeydecomp_decompress fuel d p).2.2 = .OK) ∧
    (d.state = .GetByte → d.acc_nbits < 8 →
      (gkeydecomp_decompress fuel d p).2.2 =
        if d.acc = 0 then .OK else .TruncatedInput) := by
  obtain ⟨f, rfl⟩ : ∃ f, fuel = f + 1 := ⟨fuel - 1, by omega⟩
  constructor
  · intro hst hbits
    have hacc : d.acc = 0 := by
      rw [hbits] at hinv
      omega
    refine ⟨hacc, ?_⟩
    simp only [gkeydecomp_decompress, gkeydecomp_loop, gkeydecomp_step, hst,
      dstep_GetType, read_bits, read_bits_loop, hin, hbits]
    simp
  · intro hst hbits
    have hlt : d.acc_nbits < 8 := hbits
    simp only [gkeydecomp_decompress, gkeydecomp_loop, gkeydecomp_step, hst,
      dstep_GetByte, read_bits, read_bits_loop, hin]
    rw [if_pos hlt]
    simp only [if_pos rfl]
    have h8 : ¬ (8 ≤ d.acc_nbits) := by omega
    rw [if_neg h8]
    by_cases hz : d.acc = 0
    · simp [hz]
    · simp [hz]

/-- C3: after the decoder has read a copy offset and is in state
`GetSize` with the size field decoding to `v`, it returns `BadInput`
exactly when `v = 0` or `read_offset + v` exceeds the history capacity
`2 ^ history_log_2`; otherwise it proceeds to copy `v` bytes (the step
continues as `dstep_CopyData` with `read_size := v`). -/
theorem decomp_getsize_validation (d d' : GKeyDecomp) (p p' : GKeyParameters) (v : Nat)
    (hst : d.state = .GetSize)
    (hrb : read_bits d p (GKey_get_read_size_bits d.history_log_2 d.read_offset) =
      (d', p', some v)) :
    ((v = 0 ∨ 2 ^ d.history_log_2 < d.read_offset + v) →
      gkeydecomp_step d p = ⟨d', p', .BadInput, false⟩ ∧
      ∀ fuel, (gkeydecomp_decompress (fuel + 1) d p).2.2 = .BadInput) ∧
    (¬(v = 0 ∨ 2 ^ d.history_log_2 < d.read_offset + v) →
      gkeydecomp_step d p = dstep_CopyData { d' with read_size := v, state := .CopyData } p') ∧
    ((gkeydecomp_step d p).status = .BadInput ↔
      (v = 0 ∨ 2 ^ d.history_log_2 < d.read_offset + v)) := by
  have hro : d'.read_offset = d.read_offset := by
    have h := (read_bits_preserves d p
      (GKey_get_read_size_bits d.history_log_2 d.read_offset)).2.1
    rw [hrb] at h
    exact h
  have hk : d'.history_log_2 = d.history_log_2 := by
    have h := (read_bits_preserves d p
      (GKey_get_read_size_bits d.history_log_2 d.read_offset)).2.2.2.1
    rw [hrb] at h
    exact h
  have hstep : gkeydecomp_step d p =
      (if v = 0 ∨ 2 ^ d.history_log_2 < d.read_offset + v then
        ⟨d', p', .BadInput, false⟩
      else dstep_CopyData { d' with read_size := v, state := .CopyData } p') := by
    simp only [gkeydecomp_step, hst, dstep_GetSize, hrb, hro, hk]
  refine ⟨?_, ?_, ?_⟩
  · intro hbad
    rw [hstep, if_pos hbad]
    refine ⟨rfl, fun fuel => ?_⟩
    rw [gkeydecomp_decompress, gkeydecomp_loop_succ, hstep, if_pos hbad]
    simp
  · intro hgood
    rw [hstep, if_neg hgood]
  · rw [hstep]
    by_cases hbad : v = 0 ∨ 2 ^ d.history_log_2 < d.read_offset + v
    · simp [hbad]
    · rw [if_neg hbad]
      rcases dstep_CopyData_status { d' with read_size := v, state := .CopyData } p' with h | h <;>
        simp [h, hbad]

/-- C3 witness for `decomp_getsize_validation`: a ring of capacity 4
(`k = 2`) in state `GetSize` at `read_offset = 2`, fed a size field that
decodes to 0, returns `BadInput`. -/
theorem decomp_getsize_validation_witness :
    (gkeydecomp_decompress 1
      { gkeydecomp_make 2 with state := .GetSize, read_offset := 2 }
      { in_buffer := [0], in_size := 1, out_buffer := some [], out_size := 8,
        prog_cb := none }).2.2 = GKeyStatus.BadInput :=
  ((decomp_getsize_validation
    { gkeydecomp_make 2 with state := .GetSize, read_offset := 2 }
    { gkeydecomp_make 2 with state := .GetSize, read_offset := 2, in_total := 1, acc_nbits := 7 }
    { in_buffer := [0], in_size := 1, out_buffer := some [], out_size := 8,
      prog_cb := none }
    { in_buffer := [], in_size := 0, out_buffer := some [], out_size := 8,
      prog_cb := none }
    0 rfl rfl).1 (Or.inl rfl)).2 0

/-- C4: when the encoder has committed a best match of length
`read_size > 0` (either `find_sequence` completed, or a flush call
force-completes the pending match), it emits the match as a run of
tagged literals (state `PutBytes`) exactly when
`read_size * 9 < 1 + history_log_2 + size_bits(history_log_2, read_offset)`,
and otherwise falls through to the copy token (`PutOffset`); equality
favours the copy token because the comparison is strict. -/
theorem comp_literal_vs_copy_choice (flush : Bool) (c c1 : GKeyComp)
    (p p1 : GKeyParameters)
    (hcommit : (flush = true ∧ c1 = c ∧ p1 = p) ∨
      (flush = false ∧ find_sequence c p = (c1, p1, true)))
    (hpos : 0 < c1.read_size) :
    cstep_FindSequence flush c p =
      (if c1.read_size * 9 <
          c1.history_log_2 + GKey_get_read_size_bits c1.history_log_2 c1.read_offset + 1 then
        ⟨{ c1 with state := .PutBytes }, p1, .OK, true⟩
      else cstep_PutOffset { c1 with state := .PutOffset } p1) := by
  have hsz : ¬ (c1.read_size = 0) := by omega
  rcases hcommit with ⟨hfl, hc, hp⟩ | ⟨hfl, hfs⟩
  · subst hfl hc hp
    simp only [cstep_FindSequence, if_true, hsz, if_false]
  · subst hfl
    simp only [cstep_FindSequence, Bool.false_eq_true, if_false, hfs, hsz]
    simp

/-- C4 witness for `comp_literal_vs_copy_choice`: at `k = 9`,
`read_offset = 256`, a match of length 2 costs exactly
`2 * 9 = 18 = 1 + 9 + 8` bits either way, and the copy token wins the
tie. -/
theorem comp_literal_vs_copy_choice_witness :
    cstep_FindSequence true
      { gkeycomp_make 9 with read_size := 2, read_offset := 256 }
      { in_buffer := [], in_size := 0, out_buffer := some [], out_size := 8,
        prog_cb := none } =
      cstep_PutOffset
        { gkeycomp_make 9 with read_size := 2, read_offset := 256, state := .PutOffset }
        { in_buffer := [], in_size := 0, out_buffer := some [], out_size := 8,
          prog_cb := none } := by
  have h := comp_literal_vs_copy_choice true
    { gkeycomp_make 9 with read_size := 2, read_offset := 256 }
    { gkeycomp_make 9 with read_size := 2, read_offset := 256 }
    { in_buffer := [], in_size := 0, out_buffer := some [], out_size := 8,
      prog_cb := none }
    { in_buffer := [], in_size := 0, out_buffer := some [], out_size := 8,
      prog_cb := none }
    (Or.inl ⟨rfl, rfl, rfl⟩) (by decide)
  rw [h, if_neg]
  decide

/-- C8: once `gkeycomp_compress` has completed a flush and returned
`Finished`, every subsequent call on the same compressor — with any
input and any output window — returns `Finished` again without changing
`out_total`, without writing any output bytes, and without consuming any
input. -/
theorem comp_finished_sticky (fuel : Nat) (c : GKeyComp) (p : GKeyParameters)
    (hfin : (gkeycomp_compress fuel c p).2.2 = .Finished) :
    ∀ (p2 : GKeyParameters) (fuel2 : Nat), 1 ≤ fuel2 →
      (gkeycomp_compress fuel2 (gkeycomp_compress fuel c p).1 p2).2.2 = .Finished ∧
      (gkeycomp_compress fuel2 (gkeycomp_compress fuel c p).1 p2).1.out_total =
        (gkeycomp_compress fuel c p).1.out_total ∧
      (gkeycomp_compress fuel2 (gkeycomp_compress fuel c p).1 p2).2.1.out_buffer =
        p2.out_buffer ∧
      (gkeycomp_compress fuel2 (gkeycomp_compress fuel c p).1 p2).2.1.out_size =
        p2.out_size ∧
      (gkeycomp_compress fuel2 (gkeycomp_compress fuel c p).1 p2).2.1.in_buffer =
        p2.in_buffer ∧
      (gkeycomp_compress fuel2 (gkeycomp_compress fuel c p).1 p2).2.1.in_size =
        p2.in_size := by
  have hcs : (gkeycomp_compress fuel c p).1.state = .Flush :=
    ((gkeycomp_loop_status fuel (decide (p.in_size = 0)) c p).2 hfin).1
  have hcn : (gkeycomp_compress fuel c p).1.acc_nbits = 0 :=
    ((gkeycomp_loop_status fuel (decide (p.in_size = 0)) c p).2 hfin).2
  intro p2 fuel2 hf2
  obtain ⟨f2, rfl⟩ : ∃ f, fuel2 = f + 1 := ⟨fuel2 - 1, by omega⟩
  generalize hC : (gkeycomp_compress fuel c p).1 = C at hcs hcn ⊢
  have hstep : gkeycomp_step (decide (p2.in_size = 0)) C p2 =
      ⟨C, p2, .Finished, true⟩ := by
    simp only [gkeycomp_step, hcs]
    exact cstep_Flush_idle C p2 hcn
  show ((gkeycomp_loop (f2 + 1) (decide (p2.in_size = 0)) C p2).2.2 =
      GKeyStatus.Finished) ∧
    ((gkeycomp_loop (f2 + 1) (decide (p2.in_size = 0)) C p2).1.out_total = C.out_total) ∧
    ((gkeycomp_loop (f2 + 1) (decide (p2.in_size = 0)) C p2).2.1.out_buffer = p2.out_buffer) ∧
    ((gkeycomp_loop (f2 + 1) (decide (p2.in_size = 0)) C p2).2.1.out_size = p2.out_size) ∧
    ((gkeycomp_loop (f2 + 1) (decide (p2.in_size = 0)) C p2).2.1.in_buffer = p2.in_buffer) ∧
    ((gkeycomp_loop (f2 + 1) (decide (p2.in_size = 0)) C p2).2.1.in_size = p2.in_size)
  rw [gkeycomp_loop_succ, hstep]
  simp

/-- C8 witness for `comp_finished_sticky`: a `k = 0` compressor flushed
to `Finished`, then called again with pending input. -/
theorem comp_finished_sticky_witness :
    (gkeycomp_compress 1
      (gkeycomp_compress 2 (gkeycomp_make 0)
        { in_buffer := [], in_size := 0, out_buffer := some [], out_size := 4,
          prog_cb := none }).1
      { in_buffer := [7], in_size := 1, out_buffer := some [], out_size := 4,
        prog_cb := none }).2.2 = GKeyStatus.Finished :=
  (comp_finished_sticky 2 (gkeycomp_make 0)
    { in_buffer := [], in_size := 0, out_buffer := some [], out_size := 4,
      prog_cb := none }
    (by decide)
    { in_buffer := [7], in_size := 1, out_buffer := some [], out_size := 4,
      prog_cb := none }
    1 (by decide)).1

/-- C9: `gkeycomp_compress` never returns `TruncatedInput` or
`BadInput`; its result is always one of `OK`, `BufferOverflow`,
`Aborted`, or `Finished`. -/
theorem comp_status_taxonomy (fuel : Nat) (c : GKeyComp) (p : GKeyParameters) :
    ((gkeycomp_compress fuel c p).2.2 = .OK ∨
      (gkeycomp_compress fuel c p).2.2 = .BufferOverflow ∨
      (gkeycomp_compress fuel c p).2.2 = .Aborted ∨
      (gkeycomp_compress fuel c p).2.2 = .Finished) ∧
    (gkeycomp_compress fuel c p).2.2 ≠ .TruncatedInput ∧
    (gkeycomp_compress fuel c p).2.2 ≠ .BadInput := by
  have h := (gkeycomp_loop_status fuel (decide (p.in_size = 0)) c p).1
  refine ⟨h, ?_, ?_⟩ <;>
    rcases h with h | h | h | h <;> rw [gkeycomp_compress, h] <;> decide

/-- C6, counterexample: with `n = 0` and `c = 0` the virgin-region
shortcut answers the range start although the search range `[3, 3)` is
empty, so the claim's "for every offset, n" fails at `n = 0`: the
byte-wise scan of an empty range finds nothing, yet `find_char` does not
report "not found". -/
theorem find_char_counterexample :
    RingBuffer_find_char (RingBuffer_make 3) 3 0 0 = some 3 ∧
    (∀ d : Nat, ¬(3 ≤ d ∧ d < 3 + 0)) :=
  ⟨by decide, fun d hd => by omega⟩

/-- C6, amended: for every ring buffer satisfying the zero-initialisation
invariant (`filled = false` implies every byte from `write_pos` to the
end of storage is zero) and every `offset`, `n` with `n ≥ 1` and
`offset + n ≤ capacity`, `RingBuffer_find_char ring offset n c` returns
the least `d` in `[offset, offset + n)` such that the byte at
`(write_pos + d) % capacity` equals `c`, or the not-found sentinel
(`none`, modelling `SIZE_MAX`) if no such `d` exists; in particular the
virgin-region shortcut agrees with the byte-wise scan. -/
theorem find_char_correct (ring : RingBuffer) (offset n c : Nat)
    (hlen : ring.buffer.length = ring.size)
    (hsz : ring.size = 2 ^ ring.size_log_2)
    (hwp : ring.write_pos < ring.size)
    (hzero : ring.filled = false → ∀ i, ring.write_pos ≤ i → i < ring.size →
      ring.buffer.getD i 0 = 0)
    (hn : 1 ≤ n) (hrange : offset + n ≤ ring.size) :
    (∀ d, RingBuffer_find_char ring offset n c = some d →
      offset ≤ d ∧ d < offset + n ∧
      ring.buffer.getD ((ring.write_pos + d) % ring.size) 0 = c ∧
      ∀ e, offset ≤ e → e < d →
        ring.buffer.getD ((ring.write_pos + e) % ring.size) 0 ≠ c) ∧
    (RingBuffer_find_char ring offset n c = none →
      ∀ d, offset ≤ d → d < offset + n →
        ring.buffer.getD ((ring.write_pos + d) % ring.size) 0 ≠ c) := by
  rcases ring with ⟨size, wp, filled, klog, buf⟩
  simp only at hlen hwp hrange hzero ⊢
  have hszpos : 0 < size := by omega
  have hmask : ∀ x : Nat, x &&& (size - 1) = x % size := by
    intro x
    simp only at hsz
    rw [hsz]
    exact Nat.and_pow_two_sub_one_eq_mod x klog
  by_cases hA : (wp + offset) % size < wp
  · -- the search range sits strictly below the write position
    have hge : size ≤ wp + offset := by
      by_contra hlt
      rw [Nat.mod_eq_of_lt (by omega)] at hA
      omega
    have habs : (wp + offset) % size = wp + offset - size := by
      rw [Nat.mod_eq_sub_mod hge, Nat.mod_eq_of_lt (by omega)]
    have hts : min (wp - (wp + offset - size)) n = n := by
      apply Nat.min_eq_right
      omega
    have hseglen : ((buf.drop (wp + offset - size)).take n).length = n := by
      simp only [List.length_take, List.length_drop, hlen]
      omega
    have hbyte : ∀ j, j < n →
        buf.getD ((wp + (offset + j)) % size) 0 = buf.getD (wp + offset - size + j) 0 := by
      intro j hj
      have h1 : wp + (offset + j) = size + (wp + offset - size + j) := by omega
      rw [h1, Nat.add_mod_left, Nat.mod_eq_of_lt (by omega)]
    simp only [RingBuffer_find_char, hmask, habs, if_pos (by omega : wp + offset - size < wp),
      eq_self_iff_true, if_true, hts]
    rcases hm : memchr ((buf.drop (wp + offset - size)).take n) c with _ | idx
    · refine ⟨fun d hd => by simp at hd, fun _ d hd1 hd2 => ?_⟩
      have hj := memchr_none _ _ hm (d - offset) (by omega)
      rw [getD_drop_take _ _ _ _ (by omega : d - offset < n)] at hj
      have hb := hbyte (d - offset) (by omega)
      rw [(by omega : offset + (d - offset) = d)] at hb
      rw [hb]
      exact hj
    · obtain ⟨hi1, hi2, hi3⟩ := memchr_some _ _ idx hm
      rw [hseglen] at hi1
      refine ⟨fun d hd => ?_, fun hcon => by simp at hcon⟩
      obtain rfl : idx + offset = d := by simpa using hd
      refine ⟨by omega, by omega, ?_, ?_⟩
      · have hb := hbyte idx hi1
        rw [(by omega : offset + idx = idx + offset)] at hb
        rw [hb, ← getD_drop_take _ (wp + offset - size) n idx hi1]
        exact hi2
      · intro e he1 he2
        have hj := hi3 (e - offset) (by omega)
        rw [getD_drop_take _ _ _ _ (by omega : e - offset < n)] at hj
        have hb := hbyte (e - offset) (by omega)
        rw [(by omega : offset + (e - offset) = e)] at hb
        rw [hb]
        exact hj
  · -- the search range starts at or after the write position
    have hlt : wp + offset < size := by
      rcases Nat.lt_or_ge (wp + offset) size with h | h
      · exact h
      · exfalso
        have habs : (wp + offset) % size = wp + offset - size := by
          rw [Nat.mod_eq_sub_mod h, Nat.mod_eq_of_lt (by omega)]
        rw [habs] at hA
        omega
    have habs : (wp + offset) % size = wp + offset := Nat.mod_eq_of_lt hlt
    -- byte relation for the two physical regions of the search range
    have hbyteLow : ∀ d, wp + d < size →
        buf.getD ((wp + d) % size) 0 = buf.getD (wp + d) 0 := by
      intro d hd
      rw [Nat.mod_eq_of_lt hd]
    have hbyteHigh : ∀ d, size ≤ wp + d → wp + d - size < size →
        buf.getD ((wp + d) % size) 0 = buf.getD (wp + d - size) 0 := by
      intro d h1 h2
      rw [Nat.mod_eq_sub_mod h1, Nat.mod_eq_of_lt h2]
    have hgtake : ∀ (l : List Nat) (len j : Nat), j < len →
        (l.take len).getD j 0 = l.getD j 0 := by
      intro l len j hj
      have h := getD_drop_take l 0 len j hj
      rwa [List.drop_zero, Nat.zero_add] at h
    simp only [RingBuffer_find_char, hmask, habs, if_neg (by omega : ¬(wp + offset < wp))]
    cases filled with
    | false =>
      -- virgin shortcut
      simp only [Bool.false_eq_true, if_false]
      by_cases hc0 : c = 0
      · simp only [if_pos hc0]
        refine ⟨fun d hd => ?_, fun hcon => nomatch hcon⟩
        obtain rfl : 0 + offset = d := by simpa using hd
        refine ⟨by omega, by omega, ?_, fun e he1 he2 => by omega⟩
        rw [(by omega : wp + (0 + offset) = wp + offset), Nat.mod_eq_of_lt hlt]
        rw [hzero rfl (wp + offset) (by omega) (by omega)]
        omega
      · simp only [if_neg hc0]
        by_cases hover : size - (wp + offset) < n
        · simp only [if_pos hover]
          have hts2 : min wp (n - (size - (wp + offset))) = n - (size - (wp + offset)) :=
            Nat.min_eq_right (by omega)
          rw [hts2]
          have hlen2 : (buf.take (n - (size - (wp + offset)))).length =
              n - (size - (wp + offset)) := by
            rw [List.length_take]
            omega
          rcases hm2 : memchr (buf.take (n - (size - (wp + offset)))) c with _ | idx2
          · refine ⟨fun d hd => by simp at hd, fun _ d hd1 hd2 => ?_⟩
            by_cases hreg : wp + d < size
            · rw [hbyteLow d hreg, hzero rfl (wp + d) (by omega) hreg]
              omega
            · rw [hbyteHigh d (by omega) (by omega)]
              have hj := memchr_none _ _ hm2 (wp + d - size) (by rw [hlen2]; omega)
              rwa [hgtake _ _ _ (by omega)] at hj
          · refine ⟨fun d hd => ?_, fun hcon => by simp at hcon⟩
            obtain rfl : idx2 + (offset + (size - (wp + offset))) = d := by simpa using hd
            obtain ⟨hi1, hi2, hi3⟩ := memchr_some _ _ idx2 hm2
            rw [hlen2] at hi1
            rw [hgtake _ _ _ (by omega)] at hi2
            refine ⟨by omega, by omega, ?_, ?_⟩
            · rw [hbyteHigh _ (by omega) (by omega)]
              rw [(by omega : wp + (idx2 + (offset + (size - (wp + offset)))) - size = idx2)]
              exact hi2
            · intro e he1 he2
              by_cases hreg : wp + e < size
              · rw [hbyteLow e hreg, hzero rfl (wp + e) (by omega) hreg]
                omega
              · rw [hbyteHigh e (by omega) (by omega)]
                have hj := hi3 (wp + e - size) (by omega)
                rwa [hgtake _ _ _ (by omega)] at hj
        · simp only [if_neg hover]
          refine ⟨fun d hd => by simp at hd, fun _ d hd1 hd2 => ?_⟩
          have hreg : wp + d < size := by omega
          rw [hbyteLow d hreg, hzero rfl (wp + d) (by omega) hreg]
          omega
    | true =>
      simp only [eq_self_iff_true, if_true]
      have hlen1 : ((buf.drop (wp + offset)).take (min (size - (wp + offset)) n)).length =
          min (size - (wp + offset)) n := by
        simp only [List.length_take, List.length_drop, hlen]
        omega
      rcases hm1 : memchr ((buf.drop (wp + offset)).take (min (size - (wp + offset)) n)) c
        with _ | idx
      · by_cases hover : size - (wp + offset) < n
        · have hts1 : min (size - (wp + offset)) n = size - (wp + offset) :=
            Nat.min_eq_left (by omega)
          rw [hts1] at hm1 ⊢
          simp only [if_pos hover]
          have hts2 : min wp (n - (size - (wp + offset))) = n - (size - (wp + offset)) :=
            Nat.min_eq_right (by omega)
          rw [hts2]
          have hlen2 : (buf.take (n - (size - (wp + offset)))).length =
              n - (size - (wp + offset)) := by
            rw [List.length_take]
            omega
          have hnone1 : ∀ e, offset ≤ e → wp + e < size → e < offset + n →
              buf.getD ((wp + e) % size) 0 ≠ c := by
            intro e he1 he2 he3
            rw [hbyteLow e he2]
            have hj := memchr_none _ _ hm1 (e - offset) (by simp only [List.length_take, List.length_drop, hlen]; omega)
            rw [getD_drop_take _ _ _ _ (by omega)] at hj
            rwa [(by omega : wp + offset + (e - offset) = wp + e)] at hj
          rcases hm2 : memchr (buf.take (n - (size - (wp + offset)))) c with _ | idx2
          · refine ⟨fun d hd => by simp at hd, fun _ d hd1 hd2 => ?_⟩
            by_cases hreg : wp + d < size
            · exact hnone1 d hd1 hreg hd2
            · rw [hbyteHigh d (by omega) (by omega)]
              have hj := memchr_none _ _ hm2 (wp + d - size) (by rw [hlen2]; omega)
              rwa [hgtake _ _ _ (by omega)] at hj
          · refine ⟨fun d hd => ?_, fun hcon => by simp at hcon⟩
            obtain rfl : idx2 + (offset + (size - (wp + offset))) = d := by simpa using hd
            obtain ⟨hi1, hi2, hi3⟩ := memchr_some _ _ idx2 hm2
            rw [hlen2] at hi1
            rw [hgtake _ _ _ (by omega)] at hi2
            refine ⟨by omega, by omega, ?_, ?_⟩
            · rw [hbyteHigh _ (by omega) (by omega)]
              rw [(by omega : wp + (idx2 + (offset + (size - (wp + offset)))) - size = idx2)]
              exact hi2
            · intro e he1 he2
              by_cases hreg : wp + e < size
              · exact hnone1 e he1 hreg (by omega)
              · rw [hbyteHigh e (by omega) (by omega)]
                have hj := hi3 (wp + e - size) (by omega)
                rwa [hgtake _ _ _ (by omega)] at hj
        · have hts1 : min (size - (wp + offset)) n = n := Nat.min_eq_right (by omega)
          rw [hts1] at hm1 ⊢
          simp only [if_neg (by omega : ¬(n < n))]
          refine ⟨fun d hd => by simp at hd, fun _ d hd1 hd2 => ?_⟩
          have hreg : wp + d < size := by omega
          rw [hbyteLow d hreg]
          have hj := memchr_none _ _ hm1 (d - offset) (by simp only [List.length_take, List.length_drop, hlen]; omega)
          rw [getD_drop_take _ _ _ _ (by omega)] at hj
          rwa [(by omega : wp + offset + (d - offset) = wp + d)] at hj
      · obtain ⟨hi1, hi2, hi3⟩ := memchr_some _ _ idx hm1
        rw [hlen1] at hi1
        rw [getD_drop_take _ _ _ _ hi1] at hi2
        refine ⟨fun d hd => ?_, fun hcon => by simp at hcon⟩
        obtain rfl : idx + offset = d := by simpa using hd
        refine ⟨by omega, by omega, ?_, ?_⟩
        · rw [hbyteLow _ (by omega)]
          rwa [(by omega : wp + (idx + offset) = wp + offset + idx)]
        · intro e he1 he2
          rw [hbyteLow e (by omega)]
          have hj := hi3 (e - offset) (by omega)
          rw [getD_drop_take _ _ _ _ (by omega)] at hj
          rwa [(by omega : wp + offset + (e - offset) = wp + e)] at hj

/-- C6 witness for `find_char_correct`: in a capacity-4 ring holding
`[5,6,7]`, searching 3 bytes from offset 1 for byte 7 finds it at
offset 3, with no earlier hit. -/
theorem find_char_correct_witness :
    1 ≤ 3 ∧ 3 < 1 + 3 ∧
    (RingBuffer_write (RingBuffer_make 2) [5, 6, 7]).buffer.getD
      (((RingBuffer_write (RingBuffer_make 2) [5, 6, 7]).write_pos + 3) %
        (RingBuffer_write (RingBuffer_make 2) [5, 6, 7]).size) 0 = 7 ∧
    ∀ e, 1 ≤ e → e < 3 →
      (RingBuffer_write (RingBuffer_make 2) [5, 6, 7]).buffer.getD
        (((RingBuffer_write (RingBuffer_make 2) [5, 6, 7]).write_pos + e) %
          (RingBuffer_write (RingBuffer_make 2) [5, 6, 7]).size) 0 ≠ 7 :=
  (find_char_correct (RingBuffer_write (RingBuffer_make 2) [5, 6, 7]) 1 3 7
    (by decide) (by decide) (by decide)
    (by
      intro h i h1 h2
      have hb1 : 3 ≤ i := h1
      have hb2 : i < 4 := h2
      interval_cases i <;> decide)
    (by decide) (by decide)).1 3 (by decide)

/-- C2 witness for `decomp_eos_status_amended`. -/
theorem decomp_eos_status_amended_witness :
    (gkeydecomp_decompress 1
      { gkeydecomp_make 0 with state := .GetByte, acc := 3, acc_nbits := 2 }
      { in_buffer := [], in_size := 0, out_buffer := some [], out_size := 4,
        prog_cb := none }).2.2 = GKeyStatus.TruncatedInput := by
  have h := (decomp_eos_status_amended
    { gkeydecomp_make 0 with state := .GetByte, acc := 3, acc_nbits := 2 }
    { in_buffer := [], in_size := 0, out_buffer := some [], out_size := 4,
      prog_cb := none } 1 (by decide) rfl (by decide)).2 rfl (by decide)
  simpa using h

/-- C7: when the decoder's `CopyData` step copies fewer bytes than
`read_size` because the output window is exhausted, the call returns
`BufferOverflow` with `read_size` decremented by exactly the number of
bytes copied (all `out_size` of them), `read_offset` unchanged and the
ring's write position advanced by the copied count, the accepted prefix
of the copy sequence having been appended to the output window; a
subsequent call with enough output room then produces exactly the
remaining bytes of the copy and ends with `OK`. -/
theorem decomp_copydata_resume (k : Nat) (d : GKeyDecomp) (p : GKeyParameters)
    (l : List Nat) (fuel1 : Nat)
    (hst : d.state = .CopyData)
    (hr1 : d.history.size = 2 ^ k) (hr2 : d.history.buffer.length = 2 ^ k)
    (hr3 : d.history.write_pos < 2 ^ k)
    (hofs : d.read_offset + d.read_size ≤ 2 ^ k)
    (hout : p.out_buffer = some l)
    (hm : p.out_size < d.read_size)
    (hacc : d.acc_nbits = 0) :
    (gkeydecomp_decompress (fuel1 + 1) d p).2.2 = .BufferOverflow ∧
    (gkeydecomp_decompress (fuel1 + 1) d p).1.read_size = d.read_size - p.out_size ∧
    (gkeydecomp_decompress (fuel1 + 1) d p).1.read_offset = d.read_offset ∧
    (gkeydecomp_decompress (fuel1 + 1) d p).1.history.write_pos =
      (d.history.write_pos + p.out_size) % 2 ^ k ∧
    (gkeydecomp_decompress (fuel1 + 1) d p).2.1.out_buffer =
      some (l ++ (ringReadSeq d.history d.read_offset d.read_size).take p.out_size) ∧
    ∀ (fuel2 : Nat) (p2 : GKeyParameters) (l2 : List Nat),
      p2.out_buffer = some l2 → d.read_size - p.out_size ≤ p2.out_size →
      p2.in_size = 0 → p2.prog_cb = none →
      (gkeydecomp_decompress (fuel2 + 2) (gkeydecomp_decompress (fuel1 + 1) d p).1
          p2).2.1.out_buffer =
        some (l2 ++ (ringReadSeq d.history d.read_offset d.read_size).drop p.out_size) ∧
      (gkeydecomp_decompress (fuel2 + 2) (gkeydecomp_decompress (fuel1 + 1) d p).1
          p2).2.2 = .OK := by
  have hszpos : (0 : Nat) < 2 ^ k := by positivity
  have hrc : RingBuffer_copy d.history (some gkeydecomp_ring_writer) (p, d.out_total)
      d.read_offset d.read_size =
      RingBuffer_copy_loop (some gkeydecomp_ring_writer) d.read_offset d.read_size
        (d.read_size + 1) d.history (p, d.out_total) 0 := rfl
  have C := gkeydecomp_copy_loop_spec d.read_offset d.read_size (2 ^ k) k rfl
    (d.read_size + 1) d.history p l d.out_total 0 hr1 hr2 hr3 hout (by omega) (by omega)
  rw [← hrc] at C
  simp only [Nat.sub_zero, Nat.zero_add] at C
  have hmin : min p.out_size d.read_size = p.out_size := by omega
  rw [hmin] at C
  set R := RingBuffer_copy d.history (some gkeydecomp_ring_writer) (p, d.out_total)
    d.read_offset d.read_size with hRdef
  obtain ⟨C1, C2, C3, C4, C5⟩ := C
  have hP : R.2.1.1 = { p with
      out_buffer := some (l ++ (ringReadSeq d.history d.read_offset d.read_size).take
          p.out_size)
      out_size := p.out_size - p.out_size } := by rw [C1]
  have hT : R.2.1.2 = d.out_total + p.out_size := by rw [C1]
  have hCp : R.2.2 = p.out_size := by rw [C1]
  have hstep1 : gkeydecomp_step d p =
      ⟨{ d with
           history := R.1
           out_total := d.out_total + p.out_size
           read_size := d.read_size - p.out_size },
        { p with
            out_buffer := some (l ++ (ringReadSeq d.history d.read_offset
                d.read_size).take p.out_size)
            out_size := p.out_size - p.out_size },
        .BufferOverflow, false⟩ := by
    simp only [gkeydecomp_step, hst, dstep_CopyData]
    rw [← hRdef, hCp, hP, hT]
    rw [if_neg (by omega : ¬ d.read_size ≤ p.out_size)]
  have hcall1 : gkeydecomp_decompress (fuel1 + 1) d p =
      ({ d with
           history := R.1
           out_total := d.out_total + p.out_size
           read_size := d.read_size - p.out_size },
       { p with
           out_buffer := some (l ++ (ringReadSeq d.history d.read_offset
               d.read_size).take p.out_size)
           out_size := p.out_size - p.out_size },
       GKeyStatus.BufferOverflow) := by
    show gkeydecomp_loop (fuel1 + 1) d p = _
    rw [gkeydecomp_loop_succ, hstep1, if_neg (by simp)]
  refine ⟨by rw [hcall1], by rw [hcall1], by rw [hcall1], ?_, by rw [hcall1], ?_⟩
  · rw [hcall1]
    exact C4
  · intro fuel2 p2 l2 h2out h2room h2in h2cb
    rw [hcall1]
    have hrc2 : RingBuffer_copy R.1 (some gkeydecomp_ring_writer)
        (p2, d.out_total + p.out_size) d.read_offset (d.read_size - p.out_size) =
        RingBuffer_copy_loop (some gkeydecomp_ring_writer) d.read_offset
          (d.read_size - p.out_size) ((d.read_size - p.out_size) + 1) R.1
          (p2, d.out_total + p.out_size) 0 := rfl
    have hwp1 : R.1.write_pos < 2 ^ k := by
      rw [C4]
      exact Nat.mod_lt _ hszpos
    have C' := gkeydecomp_copy_loop_spec d.read_offset (d.read_size - p.out_size) (2 ^ k) k
      rfl ((d.read_size - p.out_size) + 1) R.1 p2 l2 (d.out_total + p.out_size) 0
      C2 C3 hwp1 h2out (by omega) (by omega)
    rw [← hrc2] at C'
    simp only [Nat.sub_zero, Nat.zero_add] at C'
    have hmin2 : min p2.out_size (d.read_size - p.out_size) = d.read_size - p.out_size := by
      omega
    rw [hmin2, C5] at C'
    have hS2 : ((ringReadSeq d.history d.read_offset d.read_size).drop p.out_size).take
        (d.read_size - p.out_size) =
        (ringReadSeq d.history d.read_offset d.read_size).drop p.out_size := by
      apply List.take_of_length_le
      rw [List.length_drop, ringReadSeq_length]
    rw [hS2] at C'
    set R2 := RingBuffer_copy R.1 (some gkeydecomp_ring_writer)
      (p2, d.out_total + p.out_size) d.read_offset (d.read_size - p.out_size) with hR2def
    obtain ⟨C'1, C'2, C'3, C'4, C'5⟩ := C'
    have hPP : R2.2.1.1 = { p2 with
        out_buffer := some (l2 ++ (ringReadSeq d.history d.read_offset
            d.read_size).drop p.out_size)
        out_size := p2.out_size - (d.read_size - p.out_size) } := by rw [C'1]
    have hTT : R2.2.1.2 = d.out_total + p.out_size + (d.read_size - p.out_size) := by
      rw [C'1]
    have hCC : R2.2.2 = d.read_size - p.out_size := by rw [C'1]
    have hstep2 : gkeydecomp_step
        { d with
            history := R.1
            out_total := d.out_total + p.out_size
            read_size := d.read_size - p.out_size } p2 =
        ⟨{ d with
             history := R2.1
             out_total := d.out_total + p.out_size + (d.read_size - p.out_size)
             read_size := d.read_size - p.out_size
             state := .Progress },
          { p2 with
              out_buffer := some (l2 ++ (ringReadSeq d.history d.read_offset
                  d.read_size).drop p.out_size)
              out_size := p2.out_size - (d.read_size - p.out_size) },
          .OK, false⟩ := by
      simp only [gkeydecomp_step, hst, dstep_CopyData]
      rw [← hR2def, hCC, hPP, hTT]
      rw [if_pos (by omega : d.read_size - p.out_size ≤ d.read_size - p.out_size)]
    have hacc4 : ({ d with
        history := R2.1
        out_total := d.out_total + p.out_size + (d.read_size - p.out_size)
        read_size := d.read_size - p.out_size
        state := .GetType } : GKeyDecomp).acc_nbits < 1 := by
      show d.acc_nbits < 1
      omega
    have hrb := read_bits_empty
      { d with
          history := R2.1
          out_total := d.out_total + p.out_size + (d.read_size - p.out_size)
          read_size := d.read_size - p.out_size
          state := .GetType }
      { p2 with
          out_buffer := some (l2 ++ (ringReadSeq d.history d.read_offset
              d.read_size).drop p.out_size)
          out_size := p2.out_size - (d.read_size - p.out_size) }
      1 hacc4 h2in
    have hstep3 : gkeydecomp_step
        { d with
            history := R2.1
            out_total := d.out_total + p.out_size + (d.read_size - p.out_size)
            read_size := d.read_size - p.out_size
            state := .Progress }
        { p2 with
            out_buffer := some (l2 ++ (ringReadSeq d.history d.read_offset
                d.read_size).drop p.out_size)
            out_size := p2.out_size - (d.read_size - p.out_size) } =
        ⟨{ d with
             history := R2.1
             out_total := d.out_total + p.out_size + (d.read_size - p.out_size)
             read_size := d.read_size - p.out_size
             state := .GetType },
          { p2 with
              out_buffer := some (l2 ++ (ringReadSeq d.history d.read_offset
                  d.read_size).drop p.out_size)
              out_size := p2.out_size - (d.read_size - p.out_size)
              in_size := 0 },
          .OK, true⟩ := by
      rw [h2cb] at hrb
      simp only [gkeydecomp_step, dstep_Progress, h2cb, dstep_GetType, hrb]
    have hcall2 : gkeydecomp_decompress (fuel2 + 2)
        { d with
            history := R.1
            out_total := d.out_total + p.out_size
            read_size := d.read_size - p.out_size } p2 =
        ({ d with
             history := R2.1
             out_total := d.out_total + p.out_size + (d.read_size - p.out_size)
             read_size := d.read_size - p.out_size
             state := .GetType },
         { p2 with
             out_buffer := some (l2 ++ (ringReadSeq d.history d.read_offset
                 d.read_size).drop p.out_size)
             out_size := p2.out_size - (d.read_size - p.out_size)
             in_size := 0 },
         GKeyStatus.OK) := by
      show gkeydecomp_loop (fuel2 + 2) _ p2 = _
      rw [show fuel2 + 2 = fuel2 + 1 + 1 from rfl, gkeydecomp_loop_succ, hstep2,
        if_pos ⟨rfl, rfl⟩, gkeydecomp_loop_succ, hstep3, if_neg (by simp)]
    rw [hcall2]
    exact ⟨rfl, rfl⟩


/-- C7 witness for `decomp_copydata_resume`: a `k = 0` decoder owing a
1-byte copy to a full output window returns `BufferOverflow` with the
copy still pending, and a second call with one byte of room emits the
history byte 42 and ends with `OK`. -/
theorem decomp_copydata_resume_witness :
    (gkeydecomp_decompress 1
      { state := .CopyData, in_total := 0, out_total := 0, read_offset := 0, read_size := 1,
        acc := 0, acc_nbits := 0, literal := 0, history_log_2 := 0,
        history := { size := 1, write_pos := 0, filled := false, size_log_2 := 0,
                     buffer := [42] } }
      { in_buffer := [], in_size := 0, out_buffer := some [], out_size := 0,
        prog_cb := none }).2.2 = GKeyStatus.BufferOverflow ∧
    (gkeydecomp_decompress 1
      { state := .CopyData, in_total := 0, out_total := 0, read_offset := 0, read_size := 1,
        acc := 0, acc_nbits := 0, literal := 0, history_log_2 := 0,
        history := { size := 1, write_pos := 0, filled := false, size_log_2 := 0,
                     buffer := [42] } }
      { in_buffer := [], in_size := 0, out_buffer := some [], out_size := 0,
        prog_cb := none }).1.read_size = 1 ∧
    (gkeydecomp_decompress 2
      (gkeydecomp_decompress 1
        { state := .CopyData, in_total := 0, out_total := 0, read_offset := 0, read_size := 1,
          acc := 0, acc_nbits := 0, literal := 0, history_log_2 := 0,
          history := { size := 1, write_pos := 0, filled := false, size_log_2 := 0,
                       buffer := [42] } }
        { in_buffer := [], in_size := 0, out_buffer := some [], out_size := 0,
          prog_cb := none }).1
      { in_buffer := [], in_size := 0, out_buffer := some [], out_size := 1,
        prog_cb := none }).2.1.out_buffer = some [42] ∧
    (gkeydecomp_decompress 2
      (gkeydecomp_decompress 1
        { state := .CopyData, in_total := 0, out_total := 0, read_offset := 0, read_size := 1,
          acc := 0, acc_nbits := 0, literal := 0, history_log_2 := 0,
          history := { size := 1, write_pos := 0, filled := false, size_log_2 := 0,
                       buffer := [42] } }
        { in_buffer := [], in_size := 0, out_buffer := some [], out_size := 0,
          prog_cb := none }).1
      { in_buffer := [], in_size := 0, out_buffer := some [], out_size := 1,
        prog_cb := none }).2.2 = GKeyStatus.OK := by
  obtain ⟨h1, h2, h3, h4, h5, h6⟩ := decomp_copydata_resume 0
    { state := .CopyData, in_total := 0, out_total := 0, read_offset := 0, read_size := 1,
      acc := 0, acc_nbits := 0, literal := 0, history_log_2 := 0,
      history := { size := 1, write_pos := 0, filled := false, size_log_2 := 0,
                   buffer := [42] } }
    { in_buffer := [], in_size := 0, out_buffer := some [], out_size := 0, prog_cb := none }
    [] 0 rfl rfl rfl (by decide) (by decide) rfl (by decide) rfl
  obtain ⟨h7, h8⟩ := h6 0
    { in_buffer := [], in_size := 0, out_buffer := some [], out_size := 1, prog_cb := none }
    [] rfl (by decide) rfl rfl
  refine ⟨h1, h2, ?_, h8⟩
  rw [h7]
  decide


end GKeyLib
